import Mathlib

/-!
Verification of the Minesweeper board/game-state engine found in
`src/app/Game.tsx`.  The board is a `rows × cols` grid of cells; mines are
placed lazily on the first reveal, avoiding the clicked cell and its
neighbors; reveals cascade through zero-neighbor regions; chorded reveals
open all neighbors of a satisfied numbered cell; the session tracks
game-over/win state, a flag counter and an elapsed-seconds clock.

Coordinates are embedded as `Int` (JavaScript numbers used as array
indices may be negative or out of range); grid cell access is fallible
(`Option`), mirroring the fact that `board[r]` / `board[r][c]` is
`undefined` out of range and any field access on it throws a `TypeError`.
Intent handlers therefore return `Except GameState GameState`: `ok` is a
normal return, `error s` models a thrown `TypeError` observed with the
React state updates that had already been enqueued before the throw.

The `Math.random()`-driven Fisher-Yates shuffle in `placeMines` is
embedded by passing the shuffled pool as an explicit argument; theorems
quantify over all permutations of the available pool, i.e. over every
outcome of the random shuffle.
-/

/-- A single grid cell, as in `Game.tsx` (`type Cell`). `neighborMines`
is an `Int` because the source uses the sentinel `-1` for mines. -/
structure Cell where
  isMine : Bool
  isRevealed : Bool
  isFlagged : Bool
  neighborMines : Int
deriving DecidableEq, Repr

/-- A board is an array of rows of cells (`Cell[][]`). -/
abbrev MsBoard := List (List Cell)

/-- In-place update of one list element, as JavaScript `l[n] = ...`;
out-of-range indices leave the list unchanged (such writes never occur
in the source on in-range boards). -/
def listModify (l : List α) (n : Nat) (f : α → α) : List α :=
  match l, n with
  | [], _ => []
  | a :: as, 0 => f a :: as
  | a :: as, n+1 => a :: listModify as n f

/-- Indexed map used to embed the source's `for (r...) for (c...)` pass
that rewrites every cell from its coordinates. -/
def mapIdxFrom (f : Nat → α → β) : Nat → List α → List β
  | _, [] => []
  | i, a :: as => f i a :: mapIdxFrom f (i+1) as

/-- Fallible cell access: `board[r][c]`, `none` when the access would be
`undefined` in JavaScript (negative or too-large index). -/
def getCell (b : MsBoard) : Int → Int → Option Cell
  | Int.ofNat rn, Int.ofNat cn => (b.get? rn).bind fun row => row.get? cn
  | _, _ => none

/-- In-place mutation of the cell `board[r][c]` (a no-op when the cell
does not exist; the source only mutates existing cells). -/
def setCell (b : MsBoard) (r c : Int) (f : Cell → Cell) : MsBoard :=
  match r, c with
  | Int.ofNat rn, Int.ofNat cn => listModify b rn fun row => listModify row cn f
  | _, _ => b

/-- Number of columns the source reads as `board[0].length`. -/
def colsOf (b : MsBoard) : Int := ((b.headD []).length : Int)

/-- Rows as read by the source (`board.length`). -/
def rowsOf (b : MsBoard) : Int := (b.length : Int)

/-- Source `createEmptyBoard`: `rows × cols` grid of blank cells. -/
def createEmptyBoard (rows cols : Nat) : MsBoard :=
  List.replicate rows (List.replicate cols ⟨false, false, false, 0⟩)

/-- Source `inBounds`. -/
def inBounds (rows cols r c : Int) : Bool :=
  r ≥ 0 && r < rows && c ≥ 0 && c < cols

/-- The eight relative offsets enumerated by the nested `dr`/`dc` loops
of `getNeighbors`, in the source's row-major order (center skipped). -/
def neighborOffsets : List (Int × Int) :=
  [(-1,-1),(-1,0),(-1,1),(0,-1),(0,1),(1,-1),(1,0),(1,1)]

/-- Source `getNeighbors`: the in-bounds cells of the 3×3 block around
`(r,c)`, center excluded. -/
def getNeighbors (rows cols r c : Int) : List (Int × Int) :=
  neighborOffsets.filterMap fun d =>
    if inBounds rows cols (r + d.1) (c + d.2) then some (r + d.1, c + d.2) else none

/-- Whether `board[r][c]` exists and is a mine (used to embed reads of
`board[nr][nc].isMine` at in-bounds coordinates). -/
def isMineAt (b : MsBoard) (r c : Int) : Bool :=
  match getCell b r c with
  | some cell => cell.isMine
  | none => false

/-- The mine-neighbor counting loop of `placeMines`:
`for ([nr,nc] of neighbors) if (board[nr][nc].isMine) count++`. -/
def countMinesAround (rows cols : Int) (b : MsBoard) (r c : Int) : Nat :=
  (getNeighbors rows cols r c).countP fun p => isMineAt b p.1 p.2

/-- Forbidden-zone index set of `placeMines`: the first-click cell and
its in-bounds neighbors, each encoded as `fr * cols + fc`. -/
def forbiddenIdx (rows cols fr fc : Int) : List Int :=
  (((fr, fc) :: getNeighbors rows cols fr fc).map fun p => p.1 * cols + p.2)

/-- The `available` pool of `placeMines`: all cell indices
`0 ≤ i < rows*cols` not in the forbidden set, in ascending order
(the order the source builds before shuffling). -/
def availableIdx (rows cols fr fc : Int) : List Int :=
  (((List.range (rows * cols).toNat).map fun n : Nat => (n : Int)).filter
    fun i => !(forbiddenIdx rows cols fr fc).contains i)

/-- The mine-placing loop of `placeMines`: set `isMine = true` at
`(Math.floor(idx / cols), idx % cols)` for each drawn index. -/
def placeMineIdx (cols : Int) (b : MsBoard) (idxs : List Int) : MsBoard :=
  idxs.foldl (fun bb idx => setCell bb (idx / cols) (idx % cols)
    fun cell => { cell with isMine := true }) b

/-- The final counting pass of `placeMines`: every mine cell gets
`neighborMines = -1`, every other cell the count of its mine neighbors.
The source mutates in place, but the pass only reads `isMine` (never
written by it), so it equals this pure indexed map. -/
def recomputeCounts (b : MsBoard) : MsBoard :=
  mapIdxFrom (fun r row =>
    mapIdxFrom (fun c cell =>
      if cell.isMine then { cell with neighborMines := -1 }
      else { cell with neighborMines :=
        (countMinesAround (rowsOf b) (colsOf b) b (r : Int) (c : Int) : Int) }) 0 row) 0 b

/-- Source `placeMines`: build the forbidden zone around the first
click, collect the available indices, shuffle them (the
`Math.random()`-driven partial Fisher-Yates is abstracted as the
function `shuffle`; theorems quantify over every permutation), take
`Math.min(mines, available.length)` of them as mine locations, then
recompute every `neighborMines`. -/
def placeMines (b : MsBoard) (firstClickR firstClickC : Int) (mines : Nat)
    (shuffle : List Int → List Int) : MsBoard :=
  let available := shuffle (availableIdx (rowsOf b) (colsOf b) firstClickR firstClickC)
  recomputeCounts (placeMineIdx (colsOf b) b (available.take (min mines available.length)))

/-- Cells still hidden and unflagged; the flood-fill termination
measure (each reveal removes one such cell). -/
def hiddenCount (b : MsBoard) : Nat :=
  (b.map fun row => row.countP fun cell => !cell.isRevealed && !cell.isFlagged).sum

/-- Neighbors pushed by one flood step: the source pushes `[nr,nc]`
when `!ncell.isRevealed && !ncell.isFlagged`, reading the board after
the current cell was revealed. -/
def floodPushes (rows cols : Int) (b : MsBoard) (r c : Int) : List (Int × Int) :=
  (getNeighbors rows cols r c).filter fun p =>
    match getCell b p.1 p.2 with
    | some ncell => !ncell.isRevealed && !ncell.isFlagged
    | none => false

/-- Number of mine cells on the board. -/
def mineCount (b : MsBoard) : Nat :=
  (b.map fun row => row.countP fun cell => cell.isMine).sum

/-- The spec's board invariant: all rows have length `cols`
(`board[0].length`).  Game boards are always rectangular. -/
def rectB (b : MsBoard) : Bool :=
  b.all fun row => row.length == (b.headD []).length

/-- Decidable form of the data-model invariant of the spec: every
non-mine cell's `neighborMines` equals the exact count of its in-bounds
mine neighbors (mine cells are unconstrained here). -/
def boardConsistentB (b : MsBoard) : Bool :=
  (List.range b.length).all fun rn =>
    (List.range ((b.get? rn).getD []).length).all fun cn =>
      match getCell b (rn : Int) (cn : Int) with
      | some cell => cell.isMine ||
          (cell.neighborMines == (countMinesAround (rowsOf b) (colsOf b) b (rn : Int) (cn : Int) : Int))
      | none => true

theorem length_listModify (l : List α) (n : Nat) (f : α → α) :
    (listModify l n f).length = l.length := by
  induction l generalizing n with
  | nil => rfl
  | cons a as ih =>
    cases n with
    | zero => rfl
    | succ n => simp [listModify, ih]

theorem get?_listModify_self (l : List α) (n : Nat) (f : α → α) :
    (listModify l n f).get? n = (l.get? n).map f := by
  induction l generalizing n with
  | nil => rfl
  | cons a as ih =>
    cases n with
    | zero => rfl
    | succ n => simpa [listModify] using ih n

theorem get?_listModify_ne (l : List α) (n m : Nat) (f : α → α) (h : n ≠ m) :
    (listModify l n f).get? m = l.get? m := by
  induction l generalizing n m with
  | nil => rfl
  | cons a as ih =>
    cases n with
    | zero =>
      cases m with
      | zero => exact absurd rfl h
      | succ m => rfl
    | succ n =>
      cases m with
      | zero => rfl
      | succ m => simpa [listModify] using ih n m (by omega)

theorem countP_listModify (l : List α) (n : Nat) (f : α → α) (p : α → Bool) (a : α)
    (h : l.get? n = some a) :
    (listModify l n f).countP p + (if p a then 1 else 0)
      = l.countP p + (if p (f a) then 1 else 0) := by
  induction l generalizing n with
  | nil => simp at h
  | cons x xs ih =>
    cases n with
    | zero =>
      simp only [List.get?] at h
      cases h
      simp only [listModify, List.countP_cons]
      omega
    | succ n =>
      simp only [List.get?] at h
      have := ih n h
      simp only [listModify, List.countP_cons]
      omega

theorem map_sum_listModify (l : List α) (n : Nat) (g : α → α) (h : α → Nat) (a : α)
    (ha : l.get? n = some a) :
    ((listModify l n g).map h).sum + h a = (l.map h).sum + h (g a) := by
  induction l generalizing n with
  | nil => simp at ha
  | cons x xs ih =>
    cases n with
    | zero =>
      simp only [List.get?] at ha
      cases ha
      simp [listModify]
      omega
    | succ n =>
      simp only [List.get?] at ha
      have := ih n ha
      simp only [listModify, List.map_cons, List.sum_cons]
      omega

theorem getCell_eq_some_iff (b : MsBoard) (r c : Int) (cell : Cell) :
    getCell b r c = some cell ↔
      ∃ rn cn : Nat, r = (rn : Int) ∧ c = (cn : Int) ∧
        ∃ row, b.get? rn = some row ∧ row.get? cn = some cell := by
  cases r with
  | ofNat rn =>
    cases c with
    | ofNat cn =>
      simp only [getCell, Option.bind_eq_some, Int.ofNat_eq_coe]
      constructor
      · rintro ⟨row, hrow, hcell⟩
        exact ⟨rn, cn, rfl, rfl, row, hrow, hcell⟩
      · rintro ⟨rn', cn', hr, hc, row, hrow, hcell⟩
        have : rn' = rn := by omega
        subst this
        have : cn' = cn := by omega
        subst this
        exact ⟨row, hrow, hcell⟩
    | negSucc cn =>
      simp only [getCell]
      constructor
      · intro h
        exact absurd h (by simp)
      · rintro ⟨rn', cn', hr, hc, _⟩
        rw [Int.negSucc_eq] at hc
        omega
  | negSucc rn =>
    simp only [getCell]
    constructor
    · intro h
      exact absurd h (by simp)
    · rintro ⟨rn', cn', hr, hc, _⟩
      rw [Int.negSucc_eq] at hr
      omega

theorem setCell_ofNat (b : MsBoard) (rn cn : Nat) (f : Cell → Cell) :
    setCell b (rn : Int) (cn : Int) f = listModify b rn fun row => listModify row cn f := rfl

theorem getCell_ofNat (b : MsBoard) (rn cn : Nat) :
    getCell b (rn : Int) (cn : Int) = (b.get? rn).bind fun row => row.get? cn := rfl

theorem getCell_setCell_self (b : MsBoard) (r c : Int) (f : Cell → Cell) (cell : Cell)
    (h : getCell b r c = some cell) :
    getCell (setCell b r c f) r c = some (f cell) := by
  rw [getCell_eq_some_iff] at h
  obtain ⟨rn, cn, hr, hc, row, hrow, hcell⟩ := h
  subst hr
  subst hc
  rw [setCell_ofNat, getCell_ofNat, get?_listModify_self, hrow,
    Option.map_some', Option.some_bind, get?_listModify_self, hcell, Option.map_some']

theorem getCell_setCell_ne (b : MsBoard) (r c : Int) (f : Cell → Cell) (r' c' : Int)
    (h : ¬(r = r' ∧ c = c')) :
    getCell (setCell b r c f) r' c' = getCell b r' c' := by
  cases r with
  | negSucc rn => rfl
  | ofNat rn =>
  cases c with
  | negSucc cn => rfl
  | ofNat cn =>
  cases r' with
  | negSucc rn' => rfl
  | ofNat rn' =>
  cases c' with
  | negSucc cn' => rfl
  | ofNat cn' =>
  simp only [Int.ofNat_eq_coe] at h ⊢
  rw [setCell_ofNat, getCell_ofNat, getCell_ofNat]
  by_cases hrr : rn = rn'
  · subst hrr
    have hcc : cn ≠ cn' := by
      intro hc
      exact h ⟨rfl, by rw [hc]⟩
    rw [get?_listModify_self]
    cases hb : b.get? rn with
    | none => rfl
    | some row =>
      rw [Option.map_some', Option.some_bind, Option.some_bind,
        get?_listModify_ne row cn cn' f hcc]
  · rw [get?_listModify_ne b rn rn' _ hrr]

theorem length_setCell (b : MsBoard) (r c : Int) (f : Cell → Cell) :
    (setCell b r c f).length = b.length := by
  cases r with
  | negSucc rn => rfl
  | ofNat rn =>
  cases c with
  | negSucc cn => rfl
  | ofNat cn => exact length_listModify b rn _

theorem get?_length_setCell (b : MsBoard) (r c : Int) (f : Cell → Cell) (n : Nat) :
    ((setCell b r c f).get? n).map List.length = (b.get? n).map List.length := by
  cases r with
  | negSucc rn => rfl
  | ofNat rn =>
  cases c with
  | negSucc cn => rfl
  | ofNat cn =>
  simp only [Int.ofNat_eq_coe]
  rw [setCell_ofNat]
  by_cases hn : rn = n
  · subst hn
    rw [get?_listModify_self]
    cases hb : b.get? rn with
    | none => rfl
    | some row => simp [length_listModify]
  · rw [get?_listModify_ne b _ _ _ hn]

theorem hiddenCount_reveal (b : MsBoard) (r c : Int) (cell : Cell)
    (h : getCell b r c = some cell) (hrev : cell.isRevealed = false)
    (hflag : cell.isFlagged = false) :
    hiddenCount (setCell b r c fun cl => { cl with isRevealed := true }) < hiddenCount b := by
  rw [getCell_eq_some_iff] at h
  obtain ⟨rn, cn, hr, hc, row, hrow, hcell⟩ := h
  subst hr
  subst hc
  rw [setCell_ofNat]
  unfold hiddenCount
  have hsum := map_sum_listModify b rn
    (fun rw => listModify rw cn fun cl => { cl with isRevealed := true })
    (fun rw => rw.countP fun cl => !cl.isRevealed && !cl.isFlagged) row hrow
  have hcnt := countP_listModify row cn (fun cl => { cl with isRevealed := true })
    (fun cl => !cl.isRevealed && !cl.isFlagged) cell hcell
  simp [hrev, hflag] at hcnt
  simp only at hsum hcnt ⊢
  omega

theorem getNeighbors_length_le (rows cols r c : Int) :
    (getNeighbors rows cols r c).length ≤ 8 := by
  have := List.length_filterMap_le (fun d : Int × Int =>
    if inBounds rows cols (r + d.1) (c + d.2) then some (r + d.1, c + d.2) else none)
    neighborOffsets
  simpa [getNeighbors, neighborOffsets] using this

theorem floodPushes_length_le (rows cols : Int) (b : MsBoard) (r c : Int) :
    (floodPushes rows cols b r c).length ≤ 8 := by
  unfold floodPushes
  exact le_trans (List.length_filter_le _ _) (getNeighbors_length_le rows cols r c)

/-- The `while (stack.length)` loop of `revealFlood`: pop a coordinate,
skip it when already revealed or flagged, otherwise reveal it and, if it
is a zero-count non-mine, push its hidden unflagged neighbors.  The
`none` case (a popped coordinate outside the board) never occurs in the
source: the initial coordinate and every pushed neighbor are in bounds. -/
def floodAux (rows cols : Int) (b : MsBoard) (stack : List (Int × Int)) : MsBoard :=
  match stack with
  | [] => b
  | (cr, cc) :: rest =>
    match hc : getCell b cr cc with
    | none => floodAux rows cols b rest
    | some cell =>
      if hs : cell.isRevealed || cell.isFlagged then
        floodAux rows cols b rest
      else
        if !cell.isMine && cell.neighborMines == 0 then
          floodAux rows cols (setCell b cr cc fun cl => { cl with isRevealed := true })
            (floodPushes rows cols
              (setCell b cr cc fun cl => { cl with isRevealed := true }) cr cc ++ rest)
        else
          floodAux rows cols (setCell b cr cc fun cl => { cl with isRevealed := true }) rest
termination_by 9 * hiddenCount b + stack.length
decreasing_by
  · simp_wf
  · simp_wf
  · simp_wf
    have hlt := hiddenCount_reveal b cr cc cell hc
      (by revert hs; simp_all) (by revert hs; simp_all)
    have hle := floodPushes_length_le rows cols
      (setCell b cr cc fun cl => { cl with isRevealed := true }) cr cc
    omega
  · simp_wf
    have hlt := hiddenCount_reveal b cr cc cell hc
      (by revert hs; simp_all) (by revert hs; simp_all)
    omega

/-- Source `revealFlood(board, r, c)`: flood fill from `(r,c)`; `rows`
and `cols` are read once from the board at entry. -/
def revealFlood (b : MsBoard) (r c : Int) : MsBoard :=
  floodAux (rowsOf b) (colsOf b) b [(r, c)]

/-- Source `BoardConfig`. -/
structure BoardConfig where
  rows : Nat
  cols : Nat
  mines : Nat
deriving DecidableEq, Repr

/-- The React session state of `Game`: current board plus the scalars
`isFirstClick`, `gameOver`, `isWin`, `flagsPlaced` and `seconds`.
`timerRunning` models whether `timerRef.current` holds a live interval
(the clock that increments `seconds` once per second). -/
structure GameState where
  config : BoardConfig
  board : MsBoard
  isFirstClick : Bool
  gameOver : Bool
  isWin : Bool
  flagsPlaced : Int
  seconds : Nat
  timerRunning : Bool
deriving DecidableEq, Repr

/-- Source `cloneBoard` deep-copies the grid so React state is not
mutated in place; boards are immutable values here, so the clone is the
identity. -/
def cloneBoard (b : MsBoard) : MsBoard := b

/-- The `for (rr...) for (cc...) if (isMine) isRevealed = true` loops of
`revealCell`/`chordReveal`; on rectangular boards the in-place loop
equals this per-cell map. -/
def revealAllMines (b : MsBoard) : MsBoard :=
  b.map fun row => row.map fun cell =>
    if cell.isMine then { cell with isRevealed := true } else cell

/-- The auto-flagging loop of `checkWin` (flags every mine on a win). -/
def flagAllMines (b : MsBoard) : MsBoard :=
  b.map fun row => row.map fun cell =>
    if cell.isMine then { cell with isFlagged := true } else cell

/-- Source `countFlagsAround`. -/
def countFlagsAround (b : MsBoard) (r c : Int) : Nat :=
  (getNeighbors (rowsOf b) (colsOf b) r c).countP fun p =>
    match getCell b p.1 p.2 with
    | some cell => cell.isFlagged
    | none => false

/-- The `revealed` counter of `checkWin`: non-mine cells with
`isRevealed = true`. -/
def revealedNonMineCount (b : MsBoard) : Nat :=
  (b.map fun row => row.countP fun cell => !cell.isMine && cell.isRevealed).sum

/-- Source `checkWin(b)`: with the session state whose board is already
`b`, detect a win when every non-mine cell is revealed
(`revealed === totalSafe`); on a win set `isWin`/`gameOver`, stop the
clock, flag every mine on a clone of the board and set `flagsPlaced` to
the configured mine count.  The analytics/leaderboard calls (`track`,
`saveLocalBest`, `onSubmitRank`) are external effects outside the
session state. -/
def checkWin (s : GameState) (b : MsBoard) : GameState :=
  if (revealedNonMineCount b : Int) = rowsOf b * colsOf b - (mineCount b : Int) then
    { s with
      isWin := true
      gameOver := true
      timerRunning := false
      board := flagAllMines (cloneBoard b)
      flagsPlaced := (s.config.mines : Int) }
  else s

/-- Source `revealCell(r, c)`.  Returns `Except GameState GameState`:
`ok` is a normal return; `error s¹` models the `TypeError` thrown when
`newBoard[r][c]` is `undefined` (out-of-range coordinate), observed with
the React state updates already enqueued before the throw (on a first
click, `setIsFirstClick(false)` and `startTimer()` have fired).  Note
the source returns early on a revealed or flagged cell *without* calling
`setBoard`, so on a flagged first click the freshly generated mines are
discarded while `isFirstClick` is already `false`. -/
def revealCell (s : GameState) (r c : Int) (shuffle : List Int → List Int) :
    Except GameState GameState :=
  if s.gameOver then .ok s
  else
    let newBoard :=
      if s.isFirstClick then placeMines (cloneBoard s.board) r c s.config.mines shuffle
      else cloneBoard s.board
    let s1 := if s.isFirstClick then
        { s with isFirstClick := false, timerRunning := true }
      else s
    match getCell newBoard r c with
    | none => .error s1
    | some cell =>
      if cell.isRevealed || cell.isFlagged then .ok s1
      else if cell.isMine then
        .ok { s1 with
          board := revealAllMines newBoard
          gameOver := true
          isWin := false
          timerRunning := false }
      else
        let nb :=
          if cell.neighborMines == 0 then revealFlood newBoard r c
          else setCell newBoard r c fun cl => { cl with isRevealed := true }
        .ok (checkWin { s1 with board := nb } nb)

/-- Source `toggleFlag(r, c)`: no-op after game over or on a revealed
cell; otherwise flip `isFlagged` and adjust the counter by ±1.  `error`
models the `TypeError` on an out-of-range coordinate (the vibration
side effect is external). -/
def toggleFlag (s : GameState) (r c : Int) : Except GameState GameState :=
  if s.gameOver then .ok s
  else
    match getCell (cloneBoard s.board) r c with
    | none => .error s
    | some cell =>
      if cell.isRevealed then .ok s
      else
        .ok { s with
          board := setCell s.board r c fun cl => { cl with isFlagged := !cl.isFlagged },
          flagsPlaced := s.flagsPlaced + (if cell.isFlagged then -1 else 1) }

/-- One iteration of the neighbor loop of `chordReveal`: skip revealed
or flagged neighbors; reveal a mine neighbor and record the hit; flood
from a zero-count neighbor; reveal a numbered neighbor singly.  The
accumulator is the board being mutated plus the `hitMine` flag.  The
`none` case never occurs (neighbors are in bounds). -/
def chordStep (acc : MsBoard × Bool) (p : Int × Int) : MsBoard × Bool :=
  match getCell acc.1 p.1 p.2 with
  | none => acc
  | some ncell =>
    if !ncell.isRevealed && !ncell.isFlagged then
      if ncell.isMine then
        (setCell acc.1 p.1 p.2 fun cl => { cl with isRevealed := true }, true)
      else if ncell.neighborMines == 0 then
        (revealFlood acc.1 p.1 p.2, acc.2)
      else
        (setCell acc.1 p.1 p.2 fun cl => { cl with isRevealed := true }, acc.2)
    else acc

/-- Source `chordReveal(r, c)`: only acts on a revealed cell with
`neighborMines > 0` whose flagged-neighbor count equals exactly
`neighborMines`; then every unrevealed unflagged neighbor is revealed
(mines directly, zero-count cells by flood, numbered cells singly).  A
mine hit reveals all mines and ends the game as a loss; otherwise win
detection runs.  `error` models the `TypeError` on an out-of-range
coordinate. -/
def chordReveal (s : GameState) (r c : Int) : Except GameState GameState :=
  if s.gameOver then .ok s
  else
    match getCell s.board r c with
    | none => .error s
    | some base =>
      if !base.isRevealed || base.neighborMines ≤ 0 then .ok s
      else
        let newBoard := cloneBoard s.board
        if (countFlagsAround newBoard r c : Int) ≠ base.neighborMines then .ok s
        else
          let res := (getNeighbors (rowsOf newBoard) (colsOf newBoard) r c).foldl
            chordStep (newBoard, false)
          if res.2 then
            .ok { s with
              board := revealAllMines res.1
              gameOver := true
              isWin := false
              timerRunning := false }
          else
            .ok (checkWin { s with board := res.1 } res.1)

deriving instance DecidableEq for Except

/-- Source `reset`: fresh empty board and cleared session scalars. -/
def resetSession (next : BoardConfig) : GameState :=
  { config := next, board := createEmptyBoard next.rows next.cols, isFirstClick := true,
    gameOver := false, isWin := false, flagsPlaced := 0, seconds := 0, timerRunning := false }

theorem floodAux_nil (rows cols : Int) (b : MsBoard) :
    floodAux rows cols b [] = b := by
  conv_lhs => unfold floodAux

theorem floodAux_cons_none (rows cols : Int) (b : MsBoard) (cr cc : Int)
    (rest : List (Int × Int)) (h : getCell b cr cc = none) :
    floodAux rows cols b ((cr, cc) :: rest) = floodAux rows cols b rest := by
  conv_lhs => unfold floodAux
  split
  · rfl
  · simp_all

theorem floodAux_cons_skip (rows cols : Int) (b : MsBoard) (cr cc : Int)
    (rest : List (Int × Int)) (cell : Cell) (h : getCell b cr cc = some cell)
    (hs : (cell.isRevealed || cell.isFlagged) = true) :
    floodAux rows cols b ((cr, cc) :: rest) = floodAux rows cols b rest := by
  conv_lhs => unfold floodAux
  split
  · simp_all
  · rename_i cell' heq
    rw [h] at heq
    cases heq
    rw [dif_pos hs]

theorem floodAux_cons_zero (rows cols : Int) (b : MsBoard) (cr cc : Int)
    (rest : List (Int × Int)) (cell : Cell) (h : getCell b cr cc = some cell)
    (hs : ¬(cell.isRevealed || cell.isFlagged) = true)
    (hz : (!cell.isMine && cell.neighborMines == 0) = true) :
    floodAux rows cols b ((cr, cc) :: rest) =
      floodAux rows cols (setCell b cr cc fun cl => { cl with isRevealed := true })
        (floodPushes rows cols
          (setCell b cr cc fun cl => { cl with isRevealed := true }) cr cc ++ rest) := by
  conv_lhs => unfold floodAux
  split
  · simp_all
  · rename_i cell' heq
    rw [h] at heq
    cases heq
    rw [dif_neg hs, if_pos hz]

theorem floodAux_cons_pos (rows cols : Int) (b : MsBoard) (cr cc : Int)
    (rest : List (Int × Int)) (cell : Cell) (h : getCell b cr cc = some cell)
    (hs : ¬(cell.isRevealed || cell.isFlagged) = true)
    (hz : ¬(!cell.isMine && cell.neighborMines == 0) = true) :
    floodAux rows cols b ((cr, cc) :: rest) =
      floodAux rows cols (setCell b cr cc fun cl => { cl with isRevealed := true }) rest := by
  conv_lhs => unfold floodAux
  split
  · simp_all
  · rename_i cell' heq
    rw [h] at heq
    cases heq
    rw [dif_neg hs, if_neg hz]

/-- One cell evolves monotonically: mine/flag/count fields unchanged,
reveal can only turn on. -/
def cellGrows (a a' : Cell) : Prop :=
  a'.isMine = a.isMine ∧ a'.isFlagged = a.isFlagged ∧
    a'.neighborMines = a.neighborMines ∧ (a.isRevealed = true → a'.isRevealed = true)

/-- Every existing cell survives, with `cellGrows` evolution. -/
def boardGrows (b b' : MsBoard) : Prop :=
  ∀ r c cell, getCell b r c = some cell →
    ∃ cell', getCell b' r c = some cell' ∧ cellGrows cell cell'

theorem cellGrows_refl (a : Cell) : cellGrows a a :=
  ⟨rfl, rfl, rfl, fun h => h⟩

theorem cellGrows_trans {a b c : Cell} (h1 : cellGrows a b) (h2 : cellGrows b c) :
    cellGrows a c := by
  obtain ⟨m1, f1, n1, r1⟩ := h1
  obtain ⟨m2, f2, n2, r2⟩ := h2
  exact ⟨m2.trans m1, f2.trans f1, n2.trans n1, fun h => r2 (r1 h)⟩

theorem boardGrows_refl (b : MsBoard) : boardGrows b b :=
  fun _ _ cell h => ⟨cell, h, cellGrows_refl cell⟩

theorem boardGrows_trans {a b c : MsBoard} (h1 : boardGrows a b) (h2 : boardGrows b c) :
    boardGrows a c := by
  intro r cc cell h
  obtain ⟨cell1, hg1, hle1⟩ := h1 r cc cell h
  obtain ⟨cell2, hg2, hle2⟩ := h2 r cc cell1 hg1
  exact ⟨cell2, hg2, cellGrows_trans hle1 hle2⟩

theorem boardGrows_setReveal (b : MsBoard) (r c : Int) (cell : Cell)
    (h : getCell b r c = some cell) :
    boardGrows b (setCell b r c fun cl => { cl with isRevealed := true }) := by
  intro r' c' cell' h'
  by_cases heq : r = r' ∧ c = c'
  · obtain ⟨hr, hc⟩ := heq
    subst hr
    subst hc
    rw [h] at h'
    cases h'
    exact ⟨_, getCell_setCell_self b r c _ cell h, rfl, rfl, rfl, fun _ => rfl⟩
  · rw [getCell_setCell_ne b r c _ r' c' heq]
    exact ⟨cell', h', cellGrows_refl cell'⟩

theorem floodAux_grows (rows cols : Int) (b : MsBoard) (stack : List (Int × Int)) :
    boardGrows b (floodAux rows cols b stack) := by
  induction b, stack using floodAux.induct rows cols with
  | case1 b => rw [floodAux_nil]; exact boardGrows_refl b
  | case2 b cr cc rest h ih => rw [floodAux_cons_none rows cols b cr cc rest h]; exact ih
  | case3 b cr cc rest cell h hs ih =>
    rw [floodAux_cons_skip rows cols b cr cc rest cell h hs]; exact ih
  | case4 b cr cc rest cell h hs hz ih =>
    rw [floodAux_cons_zero rows cols b cr cc rest cell h hs hz]
    exact boardGrows_trans (boardGrows_setReveal b cr cc cell h) ih
  | case5 b cr cc rest cell h hs hz ih =>
    rw [floodAux_cons_pos rows cols b cr cc rest cell h hs hz]
    exact boardGrows_trans (boardGrows_setReveal b cr cc cell h) ih

theorem revealFlood_none (b : MsBoard) (r c : Int) (h : getCell b r c = none) :
    revealFlood b r c = b := by
  unfold revealFlood
  rw [floodAux_cons_none _ _ b r c [] h, floodAux_nil]

theorem revealFlood_skip (b : MsBoard) (r c : Int) (cell : Cell)
    (h : getCell b r c = some cell) (hs : (cell.isRevealed || cell.isFlagged) = true) :
    revealFlood b r c = b := by
  unfold revealFlood
  rw [floodAux_cons_skip _ _ b r c [] cell h hs, floodAux_nil]

theorem revealFlood_start (b : MsBoard) (r c : Int) (cell : Cell)
    (h : getCell b r c = some cell) :
    ∃ cell', getCell (revealFlood b r c) r c = some cell' ∧
      (cell'.isRevealed || cell'.isFlagged) = true := by
  by_cases hs : (cell.isRevealed || cell.isFlagged) = true
  · exact ⟨cell, by rw [revealFlood_skip b r c cell h hs]; exact h, hs⟩
  · have hset := getCell_setCell_self b r c (fun cl => { cl with isRevealed := true }) cell h
    unfold revealFlood
    by_cases hz : (!cell.isMine && cell.neighborMines == 0) = true
    · rw [floodAux_cons_zero _ _ b r c [] cell h hs hz]
      obtain ⟨cell', hget, hgrow⟩ := floodAux_grows (rowsOf b) (colsOf b) _ _ r c _ hset
      exact ⟨cell', hget, by simp [hgrow.2.2.2 rfl]⟩
    · rw [floodAux_cons_pos _ _ b r c [] cell h hs hz]
      obtain ⟨cell', hget, hgrow⟩ := floodAux_grows (rowsOf b) (colsOf b) _ _ r c _ hset
      exact ⟨cell', hget, by simp [hgrow.2.2.2 rfl]⟩

/-- Claim C9: flood reveal is idempotent.  Running `revealFlood` a
second time from the same coordinate returns the same board (whether or
not the coordinate is in bounds); in particular re-invoking it on an
already-fully-revealed zero-region changes nothing. -/
theorem revealFlood_idempotent (b : MsBoard) (r c : Int) :
    revealFlood (revealFlood b r c) r c = revealFlood b r c := by
  cases hget : getCell b r c with
  | none =>
    have h1 : revealFlood b r c = b := revealFlood_none b r c hget
    rw [h1, revealFlood_none b r c hget]
  | some cell =>
    obtain ⟨cell', hget', hs'⟩ := revealFlood_start b r c cell hget
    exact revealFlood_skip _ r c cell' hget' hs'

theorem listModify_eq_self (l : List α) (n : Nat) (f : α → α)
    (h : ∀ a, l.get? n = some a → f a = a) : listModify l n f = l := by
  induction l generalizing n with
  | nil => rfl
  | cons x xs ih =>
    cases n with
    | zero => simp [listModify, h x rfl]
    | succ n =>
      simp only [listModify, List.cons.injEq, true_and]
      exact ih n fun a ha => h a ha

theorem setCell_of_getCell_none (b : MsBoard) (r c : Int) (f : Cell → Cell)
    (h : getCell b r c = none) : setCell b r c f = b := by
  cases r with
  | negSucc rn => rfl
  | ofNat rn =>
  cases c with
  | negSucc cn => rfl
  | ofNat cn =>
  simp only [Int.ofNat_eq_coe] at h ⊢
  rw [setCell_ofNat]
  apply listModify_eq_self
  intro row hrow
  apply listModify_eq_self
  intro cell hcell
  rw [getCell_ofNat, hrow, Option.some_bind, hcell] at h
  cases h

/-- Reads at any coordinate after revealing one cell: the target cell
gets `isRevealed := true`, every other coordinate is untouched. -/
theorem isMineAt_setReveal (b : MsBoard) (r c r' c' : Int) :
    isMineAt (setCell b r c fun cl => { cl with isRevealed := true }) r' c'
      = isMineAt b r' c' := by
  by_cases heq : r = r' ∧ c = c'
  · obtain ⟨hr, hc⟩ := heq
    subst hr
    subst hc
    cases hget : getCell b r c with
    | none => rw [setCell_of_getCell_none b r c _ hget]
    | some cell =>
      unfold isMineAt
      rw [getCell_setCell_self b r c _ cell hget, hget]
  · unfold isMineAt
    rw [getCell_setCell_ne b r c _ r' c' heq]

theorem countMinesAround_setReveal (rows cols : Int) (b : MsBoard) (r c r' c' : Int) :
    countMinesAround rows cols (setCell b r c fun cl => { cl with isRevealed := true }) r' c'
      = countMinesAround rows cols b r' c' := by
  unfold countMinesAround
  apply List.countP_congr
  intro p hp
  rw [isMineAt_setReveal b r c p.1 p.2]

theorem mem_floodPushes (rows cols : Int) (b : MsBoard) (r c : Int) (p : Int × Int)
    (h : p ∈ floodPushes rows cols b r c) : p ∈ getNeighbors rows cols r c :=
  (List.mem_filter.mp h).1

theorem isMineAt_false_of_getCell (b : MsBoard) (r c : Int) (cell : Cell)
    (hget : getCell b r c = some cell) (h : isMineAt b r c = false) :
    cell.isMine = false := by
  unfold isMineAt at h
  rw [hget] at h
  exact h

/-- On a board whose `neighborMines` counts are correct for `rows`/`cols`,
the flood loop never touches a mine cell: only popped cells get revealed,
and every coordinate ever on the stack points at a non-mine cell (pushes
only come from zero-count non-mine cells, whose neighborhoods are
mine-free by correctness of the count). -/
theorem floodAux_preserves_mines (rows cols : Int) (b : MsBoard) (stack : List (Int × Int))
    (hcons : ∀ r c cell, getCell b r c = some cell → cell.isMine = false →
      cell.neighborMines = (countMinesAround rows cols b r c : Int))
    (hstack : ∀ p ∈ stack, isMineAt b p.1 p.2 = false) :
    ∀ r c cell, getCell b r c = some cell → cell.isMine = true →
      getCell (floodAux rows cols b stack) r c = some cell := by
  revert hcons hstack
  induction b, stack using floodAux.induct rows cols with
  | case1 b =>
    intro _ _ r c cell h _
    rw [floodAux_nil]
    exact h
  | case2 b cr cc rest h ih =>
    intro hcons hstack
    rw [floodAux_cons_none rows cols b cr cc rest h]
    exact ih hcons fun p hp => hstack p (List.mem_cons_of_mem _ hp)
  | case3 b cr cc rest cell h hs ih =>
    intro hcons hstack
    rw [floodAux_cons_skip rows cols b cr cc rest cell h hs]
    exact ih hcons fun p hp => hstack p (List.mem_cons_of_mem _ hp)
  | case4 b cr cc rest cell h hs hz ih =>
    intro hcons hstack
    rw [floodAux_cons_zero rows cols b cr cc rest cell h hs hz]
    have hmine : cell.isMine = false :=
      isMineAt_false_of_getCell b cr cc cell h (hstack (cr, cc) (List.mem_cons_self _ _))
    have hzero : countMinesAround rows cols b cr cc = 0 := by
      have hz' : cell.neighborMines = 0 := by
        rcases Bool.and_eq_true_iff.mp hz with ⟨_, hbeq⟩
        exact beq_iff_eq.mp hbeq
      have := hcons cr cc cell h hmine
      omega
    have hmines_all : ∀ p ∈ getNeighbors rows cols cr cc, isMineAt b p.1 p.2 = false := by
      intro p hp
      have := List.countP_eq_zero.mp hzero p hp
      simp only [Bool.not_eq_true] at this
      exact this
    have hcons' : ∀ r c cell', getCell (setCell b cr cc fun cl =>
        { cl with isRevealed := true }) r c = some cell' → cell'.isMine = false →
        cell'.neighborMines = (countMinesAround rows cols (setCell b cr cc fun cl =>
          { cl with isRevealed := true }) r c : Int) := by
      intro r c cell' hget' hmine'
      rw [countMinesAround_setReveal]
      by_cases heq : cr = r ∧ cc = c
      · obtain ⟨h1, h2⟩ := heq
        subst h1
        subst h2
        rw [getCell_setCell_self b cr cc _ cell h] at hget'
        cases hget'
        exact hcons cr cc cell h hmine
      · rw [getCell_setCell_ne b cr cc _ r c heq] at hget'
        exact hcons r c cell' hget' hmine'
    have hstack' : ∀ p ∈ floodPushes rows cols (setCell b cr cc fun cl =>
        { cl with isRevealed := true }) cr cc ++ rest,
        isMineAt (setCell b cr cc fun cl => { cl with isRevealed := true }) p.1 p.2 = false := by
      intro p hp
      rw [isMineAt_setReveal]
      rcases List.mem_append.mp hp with hp' | hp'
      · exact hmines_all p (mem_floodPushes rows cols _ cr cc p hp')
      · exact hstack p (List.mem_cons_of_mem _ hp')
    intro r c mcell hget hmine'
    have hne : ¬(cr = r ∧ cc = c) := by
      rintro ⟨h1, h2⟩
      subst h1
      subst h2
      rw [h] at hget
      cases hget
      rw [hmine'] at hmine
      cases hmine
    refine ih hcons' hstack' r c mcell ?_ hmine'
    rw [getCell_setCell_ne b cr cc _ r c hne]
    exact hget
  | case5 b cr cc rest cell h hs hz ih =>
    intro hcons hstack
    rw [floodAux_cons_pos rows cols b cr cc rest cell h hs hz]
    have hmine : cell.isMine = false :=
      isMineAt_false_of_getCell b cr cc cell h (hstack (cr, cc) (List.mem_cons_self _ _))
    have hcons' : ∀ r c cell', getCell (setCell b cr cc fun cl =>
        { cl with isRevealed := true }) r c = some cell' → cell'.isMine = false →
        cell'.neighborMines = (countMinesAround rows cols (setCell b cr cc fun cl =>
          { cl with isRevealed := true }) r c : Int) := by
      intro r c cell' hget' hmine'
      rw [countMinesAround_setReveal]
      by_cases heq : cr = r ∧ cc = c
      · obtain ⟨h1, h2⟩ := heq
        subst h1
        subst h2
        rw [getCell_setCell_self b cr cc _ cell h] at hget'
        cases hget'
        exact hcons cr cc cell h hmine
      · rw [getCell_setCell_ne b cr cc _ r c heq] at hget'
        exact hcons r c cell' hget' hmine'
    have hstack' : ∀ p ∈ rest,
        isMineAt (setCell b cr cc fun cl => { cl with isRevealed := true }) p.1 p.2 = false := by
      intro p hp
      rw [isMineAt_setReveal]
      exact hstack p (List.mem_cons_of_mem _ hp)
    intro r c mcell hget hmine'
    have hne : ¬(cr = r ∧ cc = c) := by
      rintro ⟨h1, h2⟩
      subst h1
      subst h2
      rw [h] at hget
      cases hget
      rw [hmine'] at hmine
      cases hmine
    refine ih hcons' hstack' r c mcell ?_ hmine'
    rw [getCell_setCell_ne b cr cc _ r c hne]
    exact hget

theorem boardConsistent_spec (b : MsBoard) (h : boardConsistentB b = true) :
    ∀ r c cell, getCell b r c = some cell → cell.isMine = false →
      cell.neighborMines = (countMinesAround (rowsOf b) (colsOf b) b r c : Int) := by
  intro r c cell hget hmine
  rw [getCell_eq_some_iff] at hget
  obtain ⟨rn, cn, hr, hc, row, hrow, hcell⟩ := hget
  subst hr
  subst hc
  have hrn : rn < b.length := by
    by_contra hge
    rw [List.get?_eq_none.mpr (by omega)] at hrow
    cases hrow
  have hcn : cn < ((b.get? rn).getD []).length := by
    rw [hrow, Option.getD_some]
    by_contra hge
    rw [List.get?_eq_none.mpr (by omega)] at hcell
    cases hcell
  have hg : getCell b (rn : Int) (cn : Int) = some cell := by
    rw [getCell_ofNat, hrow, Option.some_bind, hcell]
  have h1 := List.all_eq_true.mp h rn (List.mem_range.mpr hrn)
  have h2 := List.all_eq_true.mp h1 cn (List.mem_range.mpr hcn)
  rw [hg] at h2
  simp only [hmine, Bool.false_or] at h2
  exact beq_iff_eq.mp h2

/-- Claim C10: on a board satisfying the neighbor-count invariant (each
non-mine cell's `neighborMines` is the exact number of adjacent mines),
a flood reveal started at a non-mine cell leaves every mine cell
entirely untouched — in particular it never sets `isRevealed = true` on
a mine, because only neighbors of zero-count cells are enqueued and a
zero-count cell has no mine neighbor. -/
theorem claim_c10_flood_never_detonates (b : MsBoard) (r c : Int) (cell : Cell)
    (hcons : boardConsistentB b = true)
    (hstart : getCell b r c = some cell) (hmine : cell.isMine = false) :
    ∀ r' c' mcell, getCell b r' c' = some mcell → mcell.isMine = true →
      getCell (revealFlood b r c) r' c' = some mcell := by
  unfold revealFlood
  apply floodAux_preserves_mines (rowsOf b) (colsOf b) b [(r, c)]
    (boardConsistent_spec b hcons)
  intro p hp
  rw [List.mem_singleton] at hp
  subst hp
  unfold isMineAt
  rw [hstart]
  exact hmine

/-- Witness for C10 on the concrete 1×2 board `[safe "1", mine]`. -/
theorem claim_c10_witness :
    boardConsistentB [[⟨false, false, false, 1⟩, ⟨true, false, false, -1⟩]] = true ∧
    getCell [[⟨false, false, false, 1⟩, ⟨true, false, false, -1⟩]] 0 0
      = some ⟨false, false, false, 1⟩ ∧
    (⟨false, false, false, (1 : Int)⟩ : Cell).isMine = false ∧
    (∀ r' c' mcell,
      getCell [[⟨false, false, false, 1⟩, ⟨true, false, false, -1⟩]] r' c' = some mcell →
      mcell.isMine = true →
      getCell (revealFlood [[⟨false, false, false, 1⟩, ⟨true, false, false, -1⟩]] 0 0) r' c'
        = some mcell) := by
  refine ⟨by decide, by decide, rfl, ?_⟩
  exact claim_c10_flood_never_detonates _ 0 0 ⟨false, false, false, 1⟩
    (by decide) (by decide) rfl

theorem get?_mapIdxFrom (f : Nat → α → β) (i n : Nat) (l : List α) :
    (mapIdxFrom f i l).get? n = (l.get? n).map (f (i + n)) := by
  induction l generalizing i n with
  | nil => rfl
  | cons a as ih =>
    cases n with
    | zero => simp [mapIdxFrom]
    | succ n =>
      simp only [mapIdxFrom, List.get?]
      rw [ih (i + 1) n]
      have h : i + 1 + n = i + (n + 1) := by omega
      rw [h]

theorem length_mapIdxFrom (f : Nat → α → β) (i : Nat) (l : List α) :
    (mapIdxFrom f i l).length = l.length := by
  induction l generalizing i with
  | nil => rfl
  | cons a as ih => simp [mapIdxFrom, ih]

theorem countP_mapIdxFrom (f : Nat → α → α) (p : α → Bool) (i : Nat) (l : List α)
    (h : ∀ j a, p (f j a) = p a) :
    (mapIdxFrom f i l).countP p = l.countP p := by
  induction l generalizing i with
  | nil => rfl
  | cons a as ih => simp [mapIdxFrom, List.countP_cons, ih, h]

theorem rowsOf_recomputeCounts (b : MsBoard) : rowsOf (recomputeCounts b) = rowsOf b := by
  unfold rowsOf recomputeCounts
  rw [length_mapIdxFrom]

theorem colsOf_recomputeCounts (b : MsBoard) : colsOf (recomputeCounts b) = colsOf b := by
  cases b with
  | nil => rfl
  | cons row rest =>
    unfold colsOf recomputeCounts
    simp only [mapIdxFrom, List.headD_cons]
    rw [length_mapIdxFrom]

theorem getCell_recomputeCounts (b : MsBoard) (r c : Int) :
    getCell (recomputeCounts b) r c = (getCell b r c).map fun cell =>
      if cell.isMine then { cell with neighborMines := -1 }
      else { cell with neighborMines :=
        (countMinesAround (rowsOf b) (colsOf b) b r c : Int) } := by
  cases r with
  | negSucc rn => rfl
  | ofNat rn =>
  cases c with
  | negSucc cn => rfl
  | ofNat cn =>
  simp only [Int.ofNat_eq_coe]
  rw [getCell_ofNat, getCell_ofNat]
  unfold recomputeCounts
  rw [get?_mapIdxFrom]
  cases hrow : b.get? rn with
  | none => rfl
  | some row =>
    simp only [Nat.zero_add, Option.map_some', Option.some_bind]
    rw [get?_mapIdxFrom]
    cases hcell : row.get? cn with
    | none => rfl
    | some cell => simp [Nat.zero_add]

theorem isMineAt_recomputeCounts (b : MsBoard) (r c : Int) :
    isMineAt (recomputeCounts b) r c = isMineAt b r c := by
  unfold isMineAt
  rw [getCell_recomputeCounts]
  cases getCell b r c with
  | none => rfl
  | some cell =>
    simp only [Option.map_some']
    by_cases h : cell.isMine = true
    · simp [h]
    · simp only [Bool.not_eq_true] at h
      simp [h]

theorem sum_countP_mapIdxFrom (F : Nat → List Cell → List Cell) (i : Nat)
    (b : List (List Cell))
    (h : ∀ j row, (F j row).countP (fun cell => cell.isMine)
      = row.countP fun cell => cell.isMine) :
    ((mapIdxFrom F i b).map fun row => row.countP fun cell => cell.isMine).sum
      = (b.map fun row => row.countP fun cell => cell.isMine).sum := by
  induction b generalizing i with
  | nil => rfl
  | cons row rest ih => simp [mapIdxFrom, h, ih]

theorem mineCount_recomputeCounts (b : MsBoard) :
    mineCount (recomputeCounts b) = mineCount b := by
  unfold mineCount recomputeCounts
  apply sum_countP_mapIdxFrom
  intro j row
  apply countP_mapIdxFrom
  intro k a
  by_cases h : a.isMine = true
  · simp [h]
  · simp only [Bool.not_eq_true] at h
    simp [h]

theorem coord_eq_of_divmod (cols i j : Int) (h1 : i / cols = j / cols)
    (h2 : i % cols = j % cols) : i = j := by
  have hi := Int.ediv_add_emod i cols
  have hj := Int.ediv_add_emod j cols
  rw [h1, h2] at hi
  omega

theorem mineCount_setMine (b : MsBoard) (r c : Int) (cell : Cell)
    (h : getCell b r c = some cell) (hm : cell.isMine = false) :
    mineCount (setCell b r c fun cl => { cl with isMine := true }) = mineCount b + 1 := by
  rw [getCell_eq_some_iff] at h
  obtain ⟨rn, cn, hr, hc, row, hrow, hcell⟩ := h
  subst hr
  subst hc
  rw [setCell_ofNat]
  unfold mineCount
  have hsum := map_sum_listModify b rn
    (fun rw => listModify rw cn fun cl => { cl with isMine := true })
    (fun rw => rw.countP fun cell => cell.isMine) row hrow
  have hcnt := countP_listModify row cn (fun cl => { cl with isMine := true })
    (fun cell => cell.isMine) cell hcell
  simp [hm] at hcnt
  simp only at hsum hcnt ⊢
  omega

theorem placeMineIdx_cons (cols : Int) (b : MsBoard) (idx : Int) (rest : List Int) :
    placeMineIdx cols b (idx :: rest) = placeMineIdx cols
      (setCell b (idx / cols) (idx % cols) fun cell => { cell with isMine := true }) rest := rfl

theorem getCell_placeMineIdx_not_hit (cols : Int) (idxs : List Int) (b : MsBoard) (r c : Int)
    (h : ∀ idx ∈ idxs, ¬(idx / cols = r ∧ idx % cols = c)) :
    getCell (placeMineIdx cols b idxs) r c = getCell b r c := by
  induction idxs generalizing b with
  | nil => rfl
  | cons idx rest ih =>
    rw [placeMineIdx_cons, ih _ fun i hi => h i (List.mem_cons_of_mem _ hi)]
    exact getCell_setCell_ne b _ _ _ r c (h idx (List.mem_cons_self _ _))

theorem mineCount_placeMineIdx (cols : Int) (idxs : List Int) : ∀ b : MsBoard,
    (∀ idx ∈ idxs, ∃ cell, getCell b (idx / cols) (idx % cols) = some cell ∧
      cell.isMine = false) →
    idxs.Pairwise (fun i j => ¬(i / cols = j / cols ∧ i % cols = j % cols)) →
    mineCount (placeMineIdx cols b idxs) = mineCount b + idxs.length := by
  induction idxs with
  | nil =>
    intro b _ _
    rfl
  | cons idx rest ih =>
    intro b hex hpw
    rw [placeMineIdx_cons]
    obtain ⟨cell, hget, hm⟩ := hex idx (List.mem_cons_self _ _)
    have hpw' := List.pairwise_cons.mp hpw
    have hrest : ∀ i ∈ rest, ∃ cell', getCell
        (setCell b (idx / cols) (idx % cols) fun cl => { cl with isMine := true })
        (i / cols) (i % cols) = some cell' ∧ cell'.isMine = false := by
      intro i hi
      obtain ⟨cell', hget', hm'⟩ := hex i (List.mem_cons_of_mem _ hi)
      rw [getCell_setCell_ne b _ _ _ _ _ (hpw'.1 i hi)]
      exact ⟨cell', hget', hm'⟩
    rw [ih _ hrest hpw'.2, mineCount_setMine b _ _ cell hget hm, List.length_cons]
    omega

theorem mem_getNeighbors (rows cols r c : Int) (p : Int × Int) :
    p ∈ getNeighbors rows cols r c ↔ ∃ d ∈ neighborOffsets,
      inBounds rows cols (r + d.1) (c + d.2) = true ∧ p = (r + d.1, c + d.2) := by
  unfold getNeighbors
  rw [List.mem_filterMap]
  constructor
  · rintro ⟨d, hd, hf⟩
    by_cases hb : inBounds rows cols (r + d.1) (c + d.2) = true
    · rw [if_pos hb] at hf
      cases hf
      exact ⟨d, hd, hb, rfl⟩
    · rw [if_neg hb] at hf
      cases hf
  · rintro ⟨d, hd, hb, hp⟩
    exact ⟨d, hd, by rw [if_pos hb, hp]⟩

theorem inBounds_of_mem_getNeighbors (rows cols r c : Int) (p : Int × Int)
    (h : p ∈ getNeighbors rows cols r c) : inBounds rows cols p.1 p.2 = true := by
  obtain ⟨d, _, hb, hp⟩ := (mem_getNeighbors rows cols r c p).mp h
  rw [hp]
  exact hb

theorem offsets_ne_zero : ∀ d ∈ neighborOffsets, ¬(d.1 = 0 ∧ d.2 = 0) := by decide

theorem center_not_mem_getNeighbors (rows cols r c : Int) :
    (r, c) ∉ getNeighbors rows cols r c := by
  intro h
  obtain ⟨d, hd, _, hp⟩ := (mem_getNeighbors rows cols r c (r, c)).mp h
  have h1 : r = r + d.1 := congrArg Prod.fst hp
  have h2 : c = c + d.2 := congrArg Prod.snd hp
  exact offsets_ne_zero d hd ⟨by omega, by omega⟩

theorem getNeighbors_nodup (rows cols r c : Int) : (getNeighbors rows cols r c).Nodup := by
  apply List.Nodup.filterMap
  · intro d d' p hp hp'
    by_cases hb : inBounds rows cols (r + d.1) (c + d.2) = true
    · rw [if_pos hb] at hp
      by_cases hb' : inBounds rows cols (r + d'.1) (c + d'.2) = true
      · rw [if_pos hb'] at hp'
        rw [Option.mem_def] at hp hp'
        have hpp := Option.some.inj (hp.trans hp'.symm)
        have h1 := congrArg Prod.fst hpp
        have h2 := congrArg Prod.snd hpp
        simp only at h1 h2
        exact Prod.ext (by omega) (by omega)
      · rw [if_neg hb'] at hp'
        simp at hp'
    · rw [if_neg hb] at hp
      simp at hp
  · decide

/-- The forbidden-zone coordinate list: the first-click cell and its
in-bounds neighbors, as the source builds `forbiddenCoords`. -/
theorem forbiddenCoords_nodup (rows cols fr fc : Int) :
    ((fr, fc) :: getNeighbors rows cols fr fc).Nodup :=
  List.nodup_cons.mpr ⟨center_not_mem_getNeighbors rows cols fr fc,
    getNeighbors_nodup rows cols fr fc⟩

theorem forbiddenCoords_inBounds (rows cols fr fc : Int)
    (hin : inBounds rows cols fr fc = true) :
    ∀ p ∈ (fr, fc) :: getNeighbors rows cols fr fc, inBounds rows cols p.1 p.2 = true := by
  intro p hp
  rcases List.mem_cons.mp hp with h | h
  · rw [h]
    exact hin
  · exact inBounds_of_mem_getNeighbors rows cols fr fc p h

theorem inBounds_iff (rows cols r c : Int) :
    inBounds rows cols r c = true ↔ 0 ≤ r ∧ r < rows ∧ 0 ≤ c ∧ c < cols := by
  unfold inBounds
  simp only [Bool.and_eq_true, decide_eq_true_eq, ge_iff_le]
  omega

theorem idx_divmod_of_inBounds (rows cols : Int) (p : Int × Int)
    (h : inBounds rows cols p.1 p.2 = true) :
    (p.1 * cols + p.2) / cols = p.1 ∧ (p.1 * cols + p.2) % cols = p.2 := by
  obtain ⟨h1, h2, h3, h4⟩ := (inBounds_iff rows cols p.1 p.2).mp h
  have hcols : 0 < cols := by omega
  have := (Int.ediv_emod_unique hcols (a := p.1 * cols + p.2) (q := p.1) (r := p.2)).mpr
    ⟨by ring, h3, h4⟩
  exact this

theorem forbiddenIdx_nodup (rows cols fr fc : Int)
    (hin : inBounds rows cols fr fc = true) :
    (forbiddenIdx rows cols fr fc).Nodup := by
  unfold forbiddenIdx
  apply List.Nodup.map_on
  · intro p hp q hq hf
    have hpb := forbiddenCoords_inBounds rows cols fr fc hin p hp
    have hqb := forbiddenCoords_inBounds rows cols fr fc hin q hq
    obtain ⟨hp1, hp2⟩ := idx_divmod_of_inBounds rows cols p hpb
    obtain ⟨hq1, hq2⟩ := idx_divmod_of_inBounds rows cols q hqb
    rw [hf] at hp1 hp2
    exact Prod.ext (hp1.symm.trans hq1) (hp2.symm.trans hq2)
  · exact forbiddenCoords_nodup rows cols fr fc

theorem forbiddenIdx_range (rows cols fr fc : Int)
    (hin : inBounds rows cols fr fc = true) :
    ∀ i ∈ forbiddenIdx rows cols fr fc, 0 ≤ i ∧ i < rows * cols := by
  intro i hi
  unfold forbiddenIdx at hi
  obtain ⟨p, hp, hpe⟩ := List.mem_map.mp hi
  obtain ⟨h1, h2, h3, h4⟩ := (inBounds_iff rows cols p.1 p.2).mp
    (forbiddenCoords_inBounds rows cols fr fc hin p hp)
  subst hpe
  constructor
  · have := mul_nonneg h1 (by omega : (0 : Int) ≤ cols)
    omega
  · have hle := mul_le_mul_of_nonneg_right (by omega : p.1 ≤ rows - 1)
      (by omega : (0 : Int) ≤ cols)
    rw [sub_mul, one_mul] at hle
    omega

theorem length_forbiddenIdx (rows cols fr fc : Int) :
    (forbiddenIdx rows cols fr fc).length
      = ((fr, fc) :: getNeighbors rows cols fr fc).length := by
  unfold forbiddenIdx
  rw [List.length_map]

theorem contains_iff_mem_int (l : List Int) (a : Int) : l.contains a = true ↔ a ∈ l :=
  List.elem_iff

theorem mem_rangeInts (total : Nat) (i : Int) :
    i ∈ (List.range total).map (fun n : Nat => (n : Int)) ↔ 0 ≤ i ∧ i < (total : Int) := by
  rw [List.mem_map]
  constructor
  · rintro ⟨n, hn, rfl⟩
    rw [List.mem_range] at hn
    omega
  · rintro ⟨h0, hlt⟩
    exact ⟨i.toNat, List.mem_range.mpr (by omega), by omega⟩

theorem rangeInts_nodup (total : Nat) :
    ((List.range total).map (fun n : Nat => (n : Int))).Nodup :=
  (List.nodup_range total).map fun a b h => by omega

theorem mem_availableIdx (rows cols fr fc : Int) (i : Int) :
    i ∈ availableIdx rows cols fr fc ↔
      0 ≤ i ∧ i < (((rows * cols).toNat : Nat) : Int) ∧
        i ∉ forbiddenIdx rows cols fr fc := by
  unfold availableIdx
  rw [List.mem_filter, mem_rangeInts]
  constructor
  · rintro ⟨⟨h0, hlt⟩, hc⟩
    refine ⟨h0, hlt, fun hmem => ?_⟩
    rw [Bool.not_eq_true', ← Bool.not_eq_true] at hc
    exact hc ((contains_iff_mem_int _ i).mpr hmem)
  · rintro ⟨h0, hlt, hnm⟩
    refine ⟨⟨h0, hlt⟩, ?_⟩
    rw [Bool.not_eq_true', ← Bool.not_eq_true]
    intro hc
    exact hnm ((contains_iff_mem_int _ i).mp hc)

theorem availableIdx_nodup (rows cols fr fc : Int) :
    (availableIdx rows cols fr fc).Nodup :=
  (rangeInts_nodup _).filter _

theorem countP_add_countP_not (p : α → Bool) (l : List α) :
    l.countP p + l.countP (fun a => !(p a)) = l.length := by
  induction l with
  | nil => rfl
  | cons a as ih =>
    cases h : p a <;> simp [List.countP_cons, h] <;> omega

theorem length_availableIdx (rows cols fr fc : Int)
    (hin : inBounds rows cols fr fc = true)
    (htotal : ∀ i ∈ forbiddenIdx rows cols fr fc, 0 ≤ i ∧ i < (((rows * cols).toNat : Nat) : Int)) :
    (availableIdx rows cols fr fc).length
      = (rows * cols).toNat - (forbiddenIdx rows cols fr fc).length := by
  have hnd := forbiddenIdx_nodup rows cols fr fc hin
  have hLnd := rangeInts_nodup (rows * cols).toNat
  have hperm : ((((List.range (rows * cols).toNat).map fun n : Nat => (n : Int))).filter
      (fun i => (forbiddenIdx rows cols fr fc).contains i)).Perm
      (forbiddenIdx rows cols fr fc) := by
    rw [List.perm_ext_iff_of_nodup (hLnd.filter _) hnd]
    intro i
    rw [List.mem_filter, mem_rangeInts, contains_iff_mem_int]
    constructor
    · rintro ⟨_, hm⟩
      exact hm
    · intro hm
      exact ⟨htotal i hm, hm⟩
  have hsplit := countP_add_countP_not
    (fun i => (forbiddenIdx rows cols fr fc).contains i)
    (((List.range (rows * cols).toNat).map fun n : Nat => (n : Int)))
  have hlenL : (((List.range (rows * cols).toNat).map fun n : Nat => (n : Int))).length
      = (rows * cols).toNat := by
    rw [List.length_map, List.length_range]
  have hcF := hperm.length_eq
  rw [← List.countP_eq_length_filter] at hcF
  unfold availableIdx
  rw [← List.countP_eq_length_filter]
  omega

theorem get?_replicate (n m : Nat) (a : α) (h : m < n) :
    (List.replicate n a).get? m = some a := by
  induction n generalizing m with
  | zero => omega
  | succ n ih =>
    cases m with
    | zero => rfl
    | succ m =>
      rw [List.replicate_succ]
      exact ih m (by omega)

theorem rowsOf_createEmptyBoard (rows cols : Nat) :
    rowsOf (createEmptyBoard rows cols) = (rows : Int) := by
  unfold rowsOf createEmptyBoard
  rw [List.length_replicate]

theorem colsOf_createEmptyBoard (rows cols : Nat) (h : 1 ≤ rows) :
    colsOf (createEmptyBoard rows cols) = (cols : Int) := by
  unfold colsOf createEmptyBoard
  cases rows with
  | zero => omega
  | succ n =>
    rw [List.replicate_succ, List.headD_cons, List.length_replicate]

theorem getCell_createEmptyBoard (rows cols : Nat) (r c : Int)
    (h0r : 0 ≤ r) (hr : r < (rows : Int)) (h0c : 0 ≤ c) (hc : c < (cols : Int)) :
    getCell (createEmptyBoard rows cols) r c = some ⟨false, false, false, 0⟩ := by
  obtain ⟨rn, rfl⟩ := Int.eq_ofNat_of_zero_le h0r
  obtain ⟨cn, rfl⟩ := Int.eq_ofNat_of_zero_le h0c
  rw [getCell_ofNat]
  unfold createEmptyBoard
  rw [get?_replicate rows rn _ (by omega), Option.some_bind,
    get?_replicate cols cn _ (by omega)]

theorem isMineAt_createEmptyBoard (rows cols : Nat) (r c : Int) :
    isMineAt (createEmptyBoard rows cols) r c = false := by
  unfold isMineAt
  cases hget : getCell (createEmptyBoard rows cols) r c with
  | none => rfl
  | some cell =>
    rw [getCell_eq_some_iff] at hget
    obtain ⟨rn, cn, _, _, row, hrow, hcell⟩ := hget
    have hrowmem := List.get?_mem hrow
    have : row = List.replicate cols ⟨false, false, false, 0⟩ :=
      List.eq_of_mem_replicate hrowmem
    subst this
    have := List.eq_of_mem_replicate (List.get?_mem hcell)
    subst this
    rfl

theorem countP_isMine_replicate_blank (n : Nat) :
    (List.replicate n (⟨false, false, false, 0⟩ : Cell)).countP
      (fun cell => cell.isMine) = 0 := by
  induction n with
  | zero => rfl
  | succ n ih => simp [List.replicate_succ, List.countP_cons, ih]

theorem mineCount_createEmptyBoard (rows cols : Nat) :
    mineCount (createEmptyBoard rows cols) = 0 := by
  unfold mineCount createEmptyBoard
  induction rows with
  | zero => rfl
  | succ n ih =>
    rw [List.replicate_succ, List.map_cons, List.sum_cons, ih,
      countP_isMine_replicate_blank]

/-- Claim C1: for every board with an in-bounds first click, every mine
budget `m ≥ 0`, and every outcome of the random shuffle, `placeMines`
on the empty board produces exactly `min m (rows*cols - |forbidden zone|)`
mines, no forbidden-zone cell (first click plus in-bounds neighbors) is
a mine, and an oversized `m` is silently clamped to the cells outside
the zone (the function is total; there is no error path). -/
theorem claim_c1_mine_placement (rows cols : Nat) (fr fc : Int) (m : Nat)
    (shuffle : List Int → List Int)
    (hin : inBounds (rows : Int) (cols : Int) fr fc = true)
    (hperm : (shuffle (availableIdx (rows : Int) (cols : Int) fr fc)).Perm
      (availableIdx (rows : Int) (cols : Int) fr fc)) :
    mineCount (placeMines (createEmptyBoard rows cols) fr fc m shuffle)
      = min m (rows * cols
          - ((fr, fc) :: getNeighbors (rows : Int) (cols : Int) fr fc).length)
    ∧ (∀ p ∈ (fr, fc) :: getNeighbors (rows : Int) (cols : Int) fr fc,
        isMineAt (placeMines (createEmptyBoard rows cols) fr fc m shuffle) p.1 p.2 = false)
    ∧ (rows * cols - ((fr, fc) :: getNeighbors (rows : Int) (cols : Int) fr fc).length < m →
        mineCount (placeMines (createEmptyBoard rows cols) fr fc m shuffle)
          = rows * cols
              - ((fr, fc) :: getNeighbors (rows : Int) (cols : Int) fr fc).length) := by
  obtain ⟨hfr0, hfrlt, hfc0, hfclt⟩ := (inBounds_iff _ _ _ _).mp hin
  have hrows1 : 1 ≤ rows := by omega
  have hcols1 : 1 ≤ cols := by omega
  have hrowsOf := rowsOf_createEmptyBoard rows cols
  have hcolsOf := colsOf_createEmptyBoard rows cols hrows1
  have hcast : ((((rows : Int) * (cols : Int)).toNat : Nat) : Int)
      = (rows : Int) * (cols : Int) := by
    rw [← Nat.cast_mul]
    omega
  have hcast2 : ((rows : Int) * (cols : Int)).toNat = rows * cols := by omega
  have hunfold : placeMines (createEmptyBoard rows cols) fr fc m shuffle
      = recomputeCounts (placeMineIdx (cols : Int) (createEmptyBoard rows cols)
          ((shuffle (availableIdx (rows : Int) (cols : Int) fr fc)).take
            (min m (shuffle (availableIdx (rows : Int) (cols : Int) fr fc)).length))) := by
    simp only [placeMines, hrowsOf, hcolsOf]
  have hAnd := availableIdx_nodup (rows : Int) (cols : Int) fr fc
  have hshufNd : (shuffle (availableIdx (rows : Int) (cols : Int) fr fc)).Nodup :=
    hperm.symm.nodup hAnd
  have hTnd : ((shuffle (availableIdx (rows : Int) (cols : Int) fr fc)).take
      (min m (shuffle (availableIdx (rows : Int) (cols : Int) fr fc)).length)).Nodup :=
    List.Nodup.sublist (List.take_sublist _ _) hshufNd
  have hTmem : ∀ i ∈ (shuffle (availableIdx (rows : Int) (cols : Int) fr fc)).take
      (min m (shuffle (availableIdx (rows : Int) (cols : Int) fr fc)).length),
      i ∈ availableIdx (rows : Int) (cols : Int) fr fc :=
    fun i hi => hperm.subset ((List.take_sublist _ _).subset hi)
  have hTfacts : ∀ i ∈ (shuffle (availableIdx (rows : Int) (cols : Int) fr fc)).take
      (min m (shuffle (availableIdx (rows : Int) (cols : Int) fr fc)).length),
      0 ≤ i ∧ i < (rows : Int) * (cols : Int) ∧
        i ∉ forbiddenIdx (rows : Int) (cols : Int) fr fc := by
    intro i hi
    obtain ⟨h1, h2, h3⟩ := (mem_availableIdx _ _ _ _ i).mp (hTmem i hi)
    rw [hcast] at h2
    exact ⟨h1, h2, h3⟩
  have hcolspos : (0 : Int) < (cols : Int) := by omega
  have hcoords : ∀ i ∈ (shuffle (availableIdx (rows : Int) (cols : Int) fr fc)).take
      (min m (shuffle (availableIdx (rows : Int) (cols : Int) fr fc)).length),
      ∃ cell, getCell (createEmptyBoard rows cols) (i / (cols : Int)) (i % (cols : Int))
        = some cell ∧ cell.isMine = false := by
    intro i hi
    obtain ⟨h1, h2, _⟩ := hTfacts i hi
    refine ⟨⟨false, false, false, 0⟩, ?_, rfl⟩
    apply getCell_createEmptyBoard
    · exact Int.ediv_nonneg h1 (by omega)
    · exact (Int.ediv_lt_iff_lt_mul hcolspos).mpr h2
    · exact Int.emod_nonneg i (by omega)
    · exact Int.emod_lt_of_pos i hcolspos
  have hpw : ((shuffle (availableIdx (rows : Int) (cols : Int) fr fc)).take
      (min m (shuffle (availableIdx (rows : Int) (cols : Int) fr fc)).length)).Pairwise
      (fun i j => ¬(i / (cols : Int) = j / (cols : Int) ∧
        i % (cols : Int) = j % (cols : Int))) :=
    hTnd.imp fun hne hdm => hne (coord_eq_of_divmod (cols : Int) _ _ hdm.1 hdm.2)
  have hmc : mineCount (placeMines (createEmptyBoard rows cols) fr fc m shuffle)
      = min m (rows * cols
          - ((fr, fc) :: getNeighbors (rows : Int) (cols : Int) fr fc).length) := by
    rw [hunfold, mineCount_recomputeCounts,
      mineCount_placeMineIdx (cols : Int) _ (createEmptyBoard rows cols) hcoords hpw,
      mineCount_createEmptyBoard, List.length_take]
    have hlenA : (availableIdx (rows : Int) (cols : Int) fr fc).length
        = rows * cols
          - ((fr, fc) :: getNeighbors (rows : Int) (cols : Int) fr fc).length := by
      rw [length_availableIdx (rows : Int) (cols : Int) fr fc hin ?_, hcast2,
        length_forbiddenIdx]
      intro i hi
      obtain ⟨h1, h2⟩ := forbiddenIdx_range (rows : Int) (cols : Int) fr fc hin i hi
      rw [hcast]
      exact ⟨h1, h2⟩
    rw [hperm.length_eq, hlenA]
    omega
  refine ⟨hmc, ?_, fun hover => by rw [hmc]; omega⟩
  intro p hp
  rw [hunfold]
  unfold isMineAt
  rw [getCell_recomputeCounts]
  have hnot : ∀ idx ∈ (shuffle (availableIdx (rows : Int) (cols : Int) fr fc)).take
      (min m (shuffle (availableIdx (rows : Int) (cols : Int) fr fc)).length),
      ¬(idx / (cols : Int) = p.1 ∧ idx % (cols : Int) = p.2) := by
    rintro idx hidx ⟨hdiv, hmod⟩
    have hsum := Int.ediv_add_emod idx (cols : Int)
    rw [hdiv, hmod] at hsum
    have hidxeq : p.1 * (cols : Int) + p.2 = idx := by
      rw [mul_comm]
      exact hsum
    have hmemF : idx ∈ forbiddenIdx (rows : Int) (cols : Int) fr fc := by
      unfold forbiddenIdx
      exact List.mem_map.mpr ⟨p, hp, hidxeq⟩
    exact (hTfacts idx hidx).2.2 hmemF
  rw [getCell_placeMineIdx_not_hit (cols : Int) _ _ p.1 p.2 hnot]
  have := isMineAt_createEmptyBoard rows cols p.1 p.2
  unfold isMineAt at this
  cases hget : getCell (createEmptyBoard rows cols) p.1 p.2 with
  | none => rfl
  | some cell =>
    rw [hget] at this
    simp only at this
    simp [this]

/-- Witness for C1: 2×3 board, first click (0,0), one mine, identity
shuffle.  The forbidden zone has 4 cells, so exactly `min 1 (6-4) = 1`
mine is placed outside it. -/
theorem claim_c1_witness :
    inBounds ((2 : Nat) : Int) ((3 : Nat) : Int) 0 0 = true ∧
    (id (availableIdx ((2 : Nat) : Int) ((3 : Nat) : Int) 0 0)).Perm
      (availableIdx ((2 : Nat) : Int) ((3 : Nat) : Int) 0 0) ∧
    (mineCount (placeMines (createEmptyBoard 2 3) 0 0 1 id)
      = min 1 (2 * 3
          - ((0, 0) :: getNeighbors ((2 : Nat) : Int) ((3 : Nat) : Int) 0 0).length)
    ∧ (∀ p ∈ (0, 0) :: getNeighbors ((2 : Nat) : Int) ((3 : Nat) : Int) 0 0,
        isMineAt (placeMines (createEmptyBoard 2 3) 0 0 1 id) p.1 p.2 = false)
    ∧ (2 * 3 - ((0, 0) :: getNeighbors ((2 : Nat) : Int) ((3 : Nat) : Int) 0 0).length < 1 →
        mineCount (placeMines (createEmptyBoard 2 3) 0 0 1 id)
          = 2 * 3
              - ((0, 0) :: getNeighbors ((2 : Nat) : Int) ((3 : Nat) : Int) 0 0).length)) :=
  ⟨by decide, List.Perm.refl _,
    claim_c1_mine_placement 2 3 0 0 1 id (by decide) (List.Perm.refl _)⟩

theorem countMinesAround_eq_of_isMineAt (rows cols : Int) (b b' : MsBoard) (r c : Int)
    (h : ∀ r' c', isMineAt b r' c' = isMineAt b' r' c') :
    countMinesAround rows cols b r c = countMinesAround rows cols b' r c := by
  unfold countMinesAround
  apply List.countP_congr
  intro p _
  rw [h p.1 p.2]

/-- Claim C2: after `placeMines` completes (on any rectangular input
board), every mine cell carries the sentinel `neighborMines = -1` and
every non-mine cell carries exactly the number of its in-bounds
neighbors that are mines, a value between 0 and 8.  (The counting pass
runs over every cell and reads only `isMine`, so the in-place source
loop equals this pure recomputation on rectangular boards.) -/
theorem claim_c2_neighbor_counts (b : MsBoard) (fr fc : Int) (m : Nat)
    (shuffle : List Int → List Int) (hrect : rectB b = true) :
    ∀ r c cell, getCell (placeMines b fr fc m shuffle) r c = some cell →
      (cell.isMine = true → cell.neighborMines = -1) ∧
      (cell.isMine = false →
        cell.neighborMines = (countMinesAround (rowsOf (placeMines b fr fc m shuffle))
            (colsOf (placeMines b fr fc m shuffle)) (placeMines b fr fc m shuffle) r c : Int) ∧
          countMinesAround (rowsOf (placeMines b fr fc m shuffle))
            (colsOf (placeMines b fr fc m shuffle)) (placeMines b fr fc m shuffle) r c ≤ 8) := by
  intro r c cell hget
  have hunf : placeMines b fr fc m shuffle
      = recomputeCounts (placeMineIdx (colsOf b) b
          ((shuffle (availableIdx (rowsOf b) (colsOf b) fr fc)).take
            (min m (shuffle (availableIdx (rowsOf b) (colsOf b) fr fc)).length))) := by
    simp only [placeMines]
  rw [hunf] at hget ⊢
  rw [getCell_recomputeCounts] at hget
  cases hget0 : getCell (placeMineIdx (colsOf b) b
      ((shuffle (availableIdx (rowsOf b) (colsOf b) fr fc)).take
        (min m (shuffle (availableIdx (rowsOf b) (colsOf b) fr fc)).length))) r c with
  | none =>
    rw [hget0] at hget
    cases hget
  | some cell0 =>
    rw [hget0, Option.map_some'] at hget
    cases hget
    rw [rowsOf_recomputeCounts, colsOf_recomputeCounts]
    have hcnt := countMinesAround_eq_of_isMineAt
      (rowsOf (placeMineIdx (colsOf b) b
        ((shuffle (availableIdx (rowsOf b) (colsOf b) fr fc)).take
          (min m (shuffle (availableIdx (rowsOf b) (colsOf b) fr fc)).length))))
      (colsOf (placeMineIdx (colsOf b) b
        ((shuffle (availableIdx (rowsOf b) (colsOf b) fr fc)).take
          (min m (shuffle (availableIdx (rowsOf b) (colsOf b) fr fc)).length))))
      (recomputeCounts (placeMineIdx (colsOf b) b
        ((shuffle (availableIdx (rowsOf b) (colsOf b) fr fc)).take
          (min m (shuffle (availableIdx (rowsOf b) (colsOf b) fr fc)).length))))
      (placeMineIdx (colsOf b) b
        ((shuffle (availableIdx (rowsOf b) (colsOf b) fr fc)).take
          (min m (shuffle (availableIdx (rowsOf b) (colsOf b) fr fc)).length)))
      r c (fun r' c' => isMineAt_recomputeCounts _ r' c')
    by_cases hm : cell0.isMine = true
    · rw [if_pos hm]
      refine ⟨fun _ => rfl, fun hfalse => ?_⟩
      have hh : cell0.isMine = false := hfalse
      rw [hm] at hh
      cases hh
    · rw [if_neg hm]
      refine ⟨fun htrue => ?_, fun _ => ⟨?_, ?_⟩⟩
      · exact absurd htrue hm
      · rw [hcnt]
      · exact le_trans (List.countP_le_length _) (getNeighbors_length_le _ _ _ _)

/-- Witness for C2 on the concrete 2×3 board with one mine. -/
theorem claim_c2_witness :
    rectB (createEmptyBoard 2 3) = true ∧
    (∀ r c cell, getCell (placeMines (createEmptyBoard 2 3) 0 0 1 id) r c = some cell →
      (cell.isMine = true → cell.neighborMines = -1) ∧
      (cell.isMine = false →
        cell.neighborMines = (countMinesAround
            (rowsOf (placeMines (createEmptyBoard 2 3) 0 0 1 id))
            (colsOf (placeMines (createEmptyBoard 2 3) 0 0 1 id))
            (placeMines (createEmptyBoard 2 3) 0 0 1 id) r c : Int) ∧
          countMinesAround (rowsOf (placeMines (createEmptyBoard 2 3) 0 0 1 id))
            (colsOf (placeMines (createEmptyBoard 2 3) 0 0 1 id))
            (placeMines (createEmptyBoard 2 3) 0 0 1 id) r c ≤ 8)) :=
  ⟨by decide, claim_c2_neighbor_counts (createEmptyBoard 2 3) 0 0 1 id (by decide)⟩

/-- Claim C8: once `gameOver` is set, every reveal, chord and
toggle-flag intent on any coordinate (in bounds or not) returns the
state unchanged — board, flag counter, win flag and clock included —
so the session can only leave the game-over state through a reset. -/
theorem claim_c8_game_over_freezes (s : GameState) (r c : Int)
    (shuffle : List Int → List Int) (hgo : s.gameOver = true) :
    revealCell s r c shuffle = .ok s ∧ chordReveal s r c = .ok s ∧
      toggleFlag s r c = .ok s := by
  unfold revealCell chordReveal toggleFlag
  simp [hgo]

/-- Witness for C8 on a concrete finished session. -/
theorem claim_c8_witness :
    (⟨⟨1, 1, 1⟩, [[⟨false, false, false, 0⟩]], false, true, false, 0, 5, false⟩
        : GameState).gameOver = true ∧
    revealCell ⟨⟨1, 1, 1⟩, [[⟨false, false, false, 0⟩]], false, true, false, 0, 5, false⟩
        3 (-2) id
      = .ok ⟨⟨1, 1, 1⟩, [[⟨false, false, false, 0⟩]], false, true, false, 0, 5, false⟩ ∧
    chordReveal ⟨⟨1, 1, 1⟩, [[⟨false, false, false, 0⟩]], false, true, false, 0, 5, false⟩
        3 (-2)
      = .ok ⟨⟨1, 1, 1⟩, [[⟨false, false, false, 0⟩]], false, true, false, 0, 5, false⟩ ∧
    toggleFlag ⟨⟨1, 1, 1⟩, [[⟨false, false, false, 0⟩]], false, true, false, 0, 5, false⟩
        3 (-2)
      = .ok ⟨⟨1, 1, 1⟩, [[⟨false, false, false, 0⟩]], false, true, false, 0, 5, false⟩ := by
  refine ⟨rfl, ?_⟩
  have h := claim_c8_game_over_freezes
    ⟨⟨1, 1, 1⟩, [[⟨false, false, false, 0⟩]], false, true, false, 0, 5, false⟩ 3 (-2) id rfl
  exact h

/-- Claim C5 (code bug): on a 2×3 board with one configured mine, flag
cell (0,0) and then send the first reveal intent to that flagged cell.
`revealCell` generates the mined board, flips `isFirstClick` to false
and starts the clock, but returns before `setBoard`, so the committed
board still has zero mines — the claimed invariant
`mineCount = min mines (rows*cols - |zone|) = 1` is violated for the
rest of the session. -/
theorem claim_c5_flagged_first_click_bug :
    toggleFlag
        ⟨⟨2, 3, 1⟩, createEmptyBoard 2 3, true, false, false, 0, 0, false⟩ 0 0
      = Except.ok ⟨⟨2, 3, 1⟩,
          setCell (createEmptyBoard 2 3) 0 0 fun cl => { cl with isFlagged := true },
          true, false, false, 1, 0, false⟩
    ∧ revealCell ⟨⟨2, 3, 1⟩,
          setCell (createEmptyBoard 2 3) 0 0 fun cl => { cl with isFlagged := true },
          true, false, false, 1, 0, false⟩ 0 0 id
      = Except.ok ⟨⟨2, 3, 1⟩,
          setCell (createEmptyBoard 2 3) 0 0 fun cl => { cl with isFlagged := true },
          false, false, false, 1, 0, true⟩
    ∧ mineCount (setCell (createEmptyBoard 2 3) 0 0 fun cl => { cl with isFlagged := true })
        = 0
    ∧ min 1 (2 * 3
        - (((0, 0) : Int × Int) :: getNeighbors ((2 : Nat) : Int) ((3 : Nat) : Int) 0 0).length)
      = 1 := by
  refine ⟨?_, ?_, ?_, ?_⟩ <;> decide

/-- Counterexample to C6 as stated: with the game in progress, an
out-of-range coordinate makes all three intent handlers read an
`undefined` cell and throw a `TypeError` (modelled as `Except.error`)
instead of silently ignoring the intent. -/
theorem claim_c6_counterexample :
    revealCell ⟨⟨1, 1, 1⟩, [[⟨false, false, false, 0⟩]], false, false, false, 0, 0, true⟩
        0 (-1) id
      = Except.error ⟨⟨1, 1, 1⟩, [[⟨false, false, false, 0⟩]], false, false, false, 0, 0, true⟩
    ∧ chordReveal ⟨⟨1, 1, 1⟩, [[⟨false, false, false, 0⟩]], false, false, false, 0, 0, true⟩
        0 (-1)
      = Except.error ⟨⟨1, 1, 1⟩, [[⟨false, false, false, 0⟩]], false, false, false, 0, 0, true⟩
    ∧ toggleFlag ⟨⟨1, 1, 1⟩, [[⟨false, false, false, 0⟩]], false, false, false, 0, 0, true⟩
        0 (-1)
      = Except.error ⟨⟨1, 1, 1⟩, [[⟨false, false, false, 0⟩]], false, false, false, 0, 0, true⟩
    ∧ inBounds (rowsOf [[(⟨false, false, false, 0⟩ : Cell)]])
        (colsOf [[(⟨false, false, false, 0⟩ : Cell)]]) 0 (-1) = false := by
  refine ⟨?_, ?_, ?_, ?_⟩ <;> decide

theorem getCell_setCell_none_iff (b : MsBoard) (r c : Int) (f : Cell → Cell) (r' c' : Int) :
    getCell (setCell b r c f) r' c' = none ↔ getCell b r' c' = none := by
  by_cases heq : r = r' ∧ c = c'
  · obtain ⟨h1, h2⟩ := heq
    subst h1
    subst h2
    cases hget : getCell b r c with
    | none => rw [setCell_of_getCell_none b r c f hget, hget]
    | some cell =>
      rw [getCell_setCell_self b r c f cell hget]
      constructor
      · intro hh
        cases hh
      · intro hh
        cases hh
  · rw [getCell_setCell_ne b r c f r' c' heq]

theorem getCell_placeMineIdx_none_iff (cols : Int) (idxs : List Int) :
    ∀ (b : MsBoard) (r c : Int),
      getCell (placeMineIdx cols b idxs) r c = none ↔ getCell b r c = none := by
  induction idxs with
  | nil =>
    intro b r c
    rfl
  | cons idx rest ih =>
    intro b r c
    rw [placeMineIdx_cons, ih, getCell_setCell_none_iff]

theorem getCell_placeMines_none_iff (b : MsBoard) (fr fc : Int) (m : Nat)
    (shuffle : List Int → List Int) (r c : Int) :
    getCell (placeMines b fr fc m shuffle) r c = none ↔ getCell b r c = none := by
  simp only [placeMines]
  rw [getCell_recomputeCounts, Option.map_eq_none', getCell_placeMineIdx_none_iff]

theorem getCell_none_of_not_inBounds (b : MsBoard) (r c : Int) (hrect : rectB b = true)
    (h : inBounds (rowsOf b) (colsOf b) r c = false) : getCell b r c = none := by
  cases r with
  | negSucc rn => rfl
  | ofNat rn =>
  cases c with
  | negSucc cn => rfl
  | ofNat cn =>
  simp only [Int.ofNat_eq_coe] at h ⊢
  rw [getCell_ofNat]
  have hnot : ¬(0 ≤ ((rn : Nat) : Int) ∧ ((rn : Nat) : Int) < rowsOf b ∧
      0 ≤ ((cn : Nat) : Int) ∧ ((cn : Nat) : Int) < colsOf b) := by
    intro hc
    rw [(inBounds_iff _ _ _ _).mpr hc] at h
    cases h
  unfold rowsOf colsOf at hnot
  by_cases hrn : rn < b.length
  · have hcn : ¬(cn < (b.headD []).length) := by
      intro hc
      exact hnot ⟨by omega, by omega, by omega, by omega⟩
    cases hb : b.get? rn with
    | none => rfl
    | some row =>
      rw [Option.some_bind]
      have hrowmem := List.get?_mem hb
      have hlen : (row.length == (b.headD []).length) = true :=
        List.all_eq_true.mp hrect row hrowmem
      have hlen' : row.length = (b.headD []).length := beq_iff_eq.mp hlen
      rw [List.get?_eq_none.mpr (by omega)]
  · rw [List.get?_eq_none.mpr (by omega), Option.none_bind]

/-- Claim C6 amended: the handlers perform no bounds check.  After game
over any intent (including out of range) is silently ignored, but in a
running game an out-of-range coordinate makes `revealCell`,
`chordReveal` and `toggleFlag` access an `undefined` cell and raise a
`TypeError` (the `Except.error` case, carrying the React state updates
already enqueued — on a first click `isFirstClick` is already flipped
and the clock started) instead of being a silent no-op. -/
theorem claim_c6_amended (s : GameState) (r c : Int) (shuffle : List Int → List Int)
    (hgo : s.gameOver = false) (hrect : rectB s.board = true)
    (hout : inBounds (rowsOf s.board) (colsOf s.board) r c = false) :
    (∃ e, revealCell s r c shuffle = .error e) ∧
    (∃ e, chordReveal s r c = .error e) ∧
    (∃ e, toggleFlag s r c = .error e) := by
  have hnone : getCell s.board r c = none := getCell_none_of_not_inBounds s.board r c hrect hout
  refine ⟨?_, ?_, ?_⟩
  · unfold revealCell
    simp only [hgo, Bool.false_eq_true, if_false, cloneBoard]
    cases hfc : s.isFirstClick with
    | true =>
      simp only [if_true]
      rw [(getCell_placeMines_none_iff s.board r c s.config.mines shuffle r c).mpr hnone]
      exact ⟨_, rfl⟩
    | false =>
      simp only [Bool.false_eq_true, if_false]
      rw [hnone]
      exact ⟨_, rfl⟩
  · unfold chordReveal
    simp only [hgo, Bool.false_eq_true, if_false]
    rw [hnone]
    exact ⟨_, rfl⟩
  · unfold toggleFlag
    simp only [hgo, Bool.false_eq_true, if_false, cloneBoard]
    rw [hnone]
    exact ⟨_, rfl⟩

/-- Witness for the amended C6 on a concrete 1×1 running session and the
out-of-range coordinate (1, 0). -/
theorem claim_c6_amended_witness :
    (⟨⟨1, 1, 1⟩, [[⟨false, false, false, 0⟩]], false, false, false, 0, 0, true⟩
        : GameState).gameOver = false ∧
    rectB [[(⟨false, false, false, 0⟩ : Cell)]] = true ∧
    inBounds (rowsOf [[(⟨false, false, false, 0⟩ : Cell)]])
      (colsOf [[(⟨false, false, false, 0⟩ : Cell)]]) 1 0 = false ∧
    ((∃ e, revealCell
        ⟨⟨1, 1, 1⟩, [[⟨false, false, false, 0⟩]], false, false, false, 0, 0, true⟩ 1 0 id
        = .error e) ∧
      (∃ e, chordReveal
        ⟨⟨1, 1, 1⟩, [[⟨false, false, false, 0⟩]], false, false, false, 0, 0, true⟩ 1 0
        = .error e) ∧
      (∃ e, toggleFlag
        ⟨⟨1, 1, 1⟩, [[⟨false, false, false, 0⟩]], false, false, false, 0, 0, true⟩ 1 0
        = .error e)) :=
  ⟨rfl, by decide, by decide,
    claim_c6_amended ⟨⟨1, 1, 1⟩, [[⟨false, false, false, 0⟩]], false, false, false, 0, 0, true⟩
      1 0 id rfl (by decide) (by decide)⟩

theorem getCell_map_map (f : Cell → Cell) (b : MsBoard) (r c : Int) :
    getCell (b.map fun row => row.map f) r c = (getCell b r c).map f := by
  cases r with
  | negSucc rn => rfl
  | ofNat rn =>
  cases c with
  | negSucc cn => rfl
  | ofNat cn =>
  simp only [Int.ofNat_eq_coe]
  rw [getCell_ofNat, getCell_ofNat, List.get?_map]
  cases hb : b.get? rn with
  | none => rfl
  | some row =>
    rw [Option.map_some', Option.some_bind, Option.some_bind, List.get?_map]

theorem checkWin_pos (s : GameState) (b : MsBoard)
    (h : (revealedNonMineCount b : Int) = rowsOf b * colsOf b - (mineCount b : Int)) :
    checkWin s b = { s with
      isWin := true
      gameOver := true
      timerRunning := false
      board := flagAllMines (cloneBoard b)
      flagsPlaced := (s.config.mines : Int) } := by
  unfold checkWin
  rw [if_pos h]

theorem checkWin_neg (s : GameState) (b : MsBoard)
    (h : ¬(revealedNonMineCount b : Int) = rowsOf b * colsOf b - (mineCount b : Int)) :
    checkWin s b = s := by
  unfold checkWin
  rw [if_neg h]

/-- Claim C3: for a session not already over whose board carries exactly
the configured number of mines, `checkWin` detects a win exactly when
the number of revealed non-mine cells equals the total cell count minus
the mine count; on detection it sets `gameOver` and `isWin`, flags every
mine cell, and sets `flagsPlaced` to the total mine count. -/
theorem claim_c3_win_detection (s : GameState) (b : MsBoard)
    (hgo : s.gameOver = false)
    (hmines : (mineCount b : Int) = (s.config.mines : Int)) :
    (((checkWin s b).gameOver = true ∧ (checkWin s b).isWin = true) ↔
      (revealedNonMineCount b : Int) = rowsOf b * colsOf b - (mineCount b : Int)) ∧
    ((revealedNonMineCount b : Int) = rowsOf b * colsOf b - (mineCount b : Int) →
      (∀ r c cell, getCell (checkWin s b).board r c = some cell → cell.isMine = true →
        cell.isFlagged = true) ∧
      (checkWin s b).flagsPlaced = (mineCount b : Int)) := by
  by_cases hwin : (revealedNonMineCount b : Int) = rowsOf b * colsOf b - (mineCount b : Int)
  · rw [checkWin_pos s b hwin]
    refine ⟨⟨fun _ => hwin, fun _ => ⟨rfl, rfl⟩⟩, fun _ => ⟨?_, hmines.symm⟩⟩
    intro r c cell hget hmine
    unfold flagAllMines cloneBoard at hget
    rw [getCell_map_map] at hget
    cases hb : getCell b r c with
    | none =>
      rw [hb] at hget
      cases hget
    | some cell0 =>
      rw [hb, Option.map_some'] at hget
      cases hget
      by_cases hm : cell0.isMine = true
      · rw [if_pos hm]
      · rw [if_neg hm] at hmine ⊢
        exact absurd hmine hm
  · rw [checkWin_neg s b hwin]
    refine ⟨⟨fun hcon => absurd hcon.1 (by rw [hgo]; exact Bool.false_ne_true),
      fun hcon => absurd hcon hwin⟩, fun hcon => absurd hcon hwin⟩

/-- Witness for C3 on a concrete 1×2 session one reveal away from the
win condition. -/
theorem claim_c3_witness :
    (⟨⟨1, 2, 1⟩, [[⟨false, true, false, 1⟩, ⟨true, false, false, -1⟩]],
        false, false, false, 0, 7, true⟩ : GameState).gameOver = false ∧
    (mineCount [[⟨false, true, false, 1⟩, ⟨true, false, false, -1⟩]] : Int)
      = ((⟨⟨1, 2, 1⟩, [[⟨false, true, false, 1⟩, ⟨true, false, false, -1⟩]],
          false, false, false, 0, 7, true⟩ : GameState).config.mines : Int) ∧
    ((((checkWin ⟨⟨1, 2, 1⟩, [[⟨false, true, false, 1⟩, ⟨true, false, false, -1⟩]],
          false, false, false, 0, 7, true⟩
        [[⟨false, true, false, 1⟩, ⟨true, false, false, -1⟩]]).gameOver = true ∧
      (checkWin ⟨⟨1, 2, 1⟩, [[⟨false, true, false, 1⟩, ⟨true, false, false, -1⟩]],
          false, false, false, 0, 7, true⟩
        [[⟨false, true, false, 1⟩, ⟨true, false, false, -1⟩]]).isWin = true) ↔
      (revealedNonMineCount [[⟨false, true, false, 1⟩, ⟨true, false, false, -1⟩]] : Int)
        = rowsOf [[⟨false, true, false, 1⟩, ⟨true, false, false, -1⟩]]
            * colsOf [[⟨false, true, false, 1⟩, ⟨true, false, false, -1⟩]]
          - (mineCount [[⟨false, true, false, 1⟩, ⟨true, false, false, -1⟩]] : Int)) ∧
    ((revealedNonMineCount [[⟨false, true, false, 1⟩, ⟨true, false, false, -1⟩]] : Int)
        = rowsOf [[⟨false, true, false, 1⟩, ⟨true, false, false, -1⟩]]
            * colsOf [[⟨false, true, false, 1⟩, ⟨true, false, false, -1⟩]]
          - (mineCount [[⟨false, true, false, 1⟩, ⟨true, false, false, -1⟩]] : Int) →
      (∀ r c cell, getCell (checkWin ⟨⟨1, 2, 1⟩,
          [[⟨false, true, false, 1⟩, ⟨true, false, false, -1⟩]],
          false, false, false, 0, 7, true⟩
          [[⟨false, true, false, 1⟩, ⟨true, false, false, -1⟩]]).board r c = some cell →
        cell.isMine = true → cell.isFlagged = true) ∧
      (checkWin ⟨⟨1, 2, 1⟩, [[⟨false, true, false, 1⟩, ⟨true, false, false, -1⟩]],
          false, false, false, 0, 7, true⟩
        [[⟨false, true, false, 1⟩, ⟨true, false, false, -1⟩]]).flagsPlaced
        = (mineCount [[⟨false, true, false, 1⟩, ⟨true, false, false, -1⟩]] : Int))) :=
  ⟨rfl, by decide,
    claim_c3_win_detection
      ⟨⟨1, 2, 1⟩, [[⟨false, true, false, 1⟩, ⟨true, false, false, -1⟩]],
        false, false, false, 0, 7, true⟩
      [[⟨false, true, false, 1⟩, ⟨true, false, false, -1⟩]] rfl (by decide)⟩

theorem floodAux_pointwise (rows cols : Int) (b : MsBoard) (stack : List (Int × Int)) :
    ∀ r c, getCell (floodAux rows cols b stack) r c = getCell b r c ∨
      ∃ cell, getCell b r c = some cell ∧
        getCell (floodAux rows cols b stack) r c = some { cell with isRevealed := true } := by
  induction b, stack using floodAux.induct rows cols with
  | case1 b =>
    intro r c
    rw [floodAux_nil]
    exact Or.inl rfl
  | case2 b cr cc rest h ih =>
    intro r c
    rw [floodAux_cons_none rows cols b cr cc rest h]
    exact ih r c
  | case3 b cr cc rest cell h hs ih =>
    intro r c
    rw [floodAux_cons_skip rows cols b cr cc rest cell h hs]
    exact ih r c
  | case4 b cr cc rest cell h hs hz ih =>
    intro r c
    rw [floodAux_cons_zero rows cols b cr cc rest cell h hs hz]
    by_cases heq : cr = r ∧ cc = c
    · obtain ⟨h1, h2⟩ := heq
      subst h1
      subst h2
      rcases ih cr cc with hsame | ⟨cell1, hget1, hres1⟩
      · rw [hsame, getCell_setCell_self b cr cc _ cell h]
        exact Or.inr ⟨cell, h, rfl⟩
      · rw [getCell_setCell_self b cr cc _ cell h] at hget1
        cases hget1
        rw [hres1]
        exact Or.inr ⟨cell, h, rfl⟩
    · have hne := getCell_setCell_ne b cr cc
        (fun cl => { cl with isRevealed := true }) r c heq
      rcases ih r c with hsame | ⟨cell1, hget1, hres1⟩
      · rw [hsame, hne]
        exact Or.inl rfl
      · rw [hne] at hget1
        exact Or.inr ⟨cell1, hget1, hres1⟩
  | case5 b cr cc rest cell h hs hz ih =>
    intro r c
    rw [floodAux_cons_pos rows cols b cr cc rest cell h hs hz]
    by_cases heq : cr = r ∧ cc = c
    · obtain ⟨h1, h2⟩ := heq
      subst h1
      subst h2
      rcases ih cr cc with hsame | ⟨cell1, hget1, hres1⟩
      · rw [hsame, getCell_setCell_self b cr cc _ cell h]
        exact Or.inr ⟨cell, h, rfl⟩
      · rw [getCell_setCell_self b cr cc _ cell h] at hget1
        cases hget1
        rw [hres1]
        exact Or.inr ⟨cell, h, rfl⟩
    · have hne := getCell_setCell_ne b cr cc
        (fun cl => { cl with isRevealed := true }) r c heq
      rcases ih r c with hsame | ⟨cell1, hget1, hres1⟩
      · rw [hsame, hne]
        exact Or.inl rfl
      · rw [hne] at hget1
        exact Or.inr ⟨cell1, hget1, hres1⟩

theorem isMineAt_floodAux (rows cols : Int) (b : MsBoard) (stack : List (Int × Int))
    (r c : Int) : isMineAt (floodAux rows cols b stack) r c = isMineAt b r c := by
  rcases floodAux_pointwise rows cols b stack r c with hsame | ⟨cell, hget, hres⟩
  · unfold isMineAt
    rw [hsame]
  · unfold isMineAt
    rw [hres, hget]

theorem headD_length (b : MsBoard) :
    (b.headD []).length = ((b.get? 0).map List.length).getD 0 := by
  cases b with
  | nil => rfl
  | cons row rest => rfl

theorem colsOf_setCell (b : MsBoard) (r c : Int) (f : Cell → Cell) :
    colsOf (setCell b r c f) = colsOf b := by
  unfold colsOf
  rw [headD_length, headD_length, get?_length_setCell]

theorem rowsOf_setCell (b : MsBoard) (r c : Int) (f : Cell → Cell) :
    rowsOf (setCell b r c f) = rowsOf b := by
  unfold rowsOf
  rw [length_setCell]

theorem dims_floodAux (rows cols : Int) (b : MsBoard) (stack : List (Int × Int)) :
    rowsOf (floodAux rows cols b stack) = rowsOf b ∧
      colsOf (floodAux rows cols b stack) = colsOf b := by
  induction b, stack using floodAux.induct rows cols with
  | case1 b =>
    rw [floodAux_nil]
    exact ⟨rfl, rfl⟩
  | case2 b cr cc rest h ih =>
    rw [floodAux_cons_none rows cols b cr cc rest h]
    exact ih
  | case3 b cr cc rest cell h hs ih =>
    rw [floodAux_cons_skip rows cols b cr cc rest cell h hs]
    exact ih
  | case4 b cr cc rest cell h hs hz ih =>
    rw [floodAux_cons_zero rows cols b cr cc rest cell h hs hz]
    rw [ih.1, ih.2, rowsOf_setCell, colsOf_setCell]
    exact ⟨rfl, rfl⟩
  | case5 b cr cc rest cell h hs hz ih =>
    rw [floodAux_cons_pos rows cols b cr cc rest cell h hs hz]
    rw [ih.1, ih.2, rowsOf_setCell, colsOf_setCell]
    exact ⟨rfl, rfl⟩

theorem cons_setReveal (rows cols : Int) (b : MsBoard) (r c : Int)
    (hcons : ∀ r' c' cell, getCell b r' c' = some cell → cell.isMine = false →
      cell.neighborMines = (countMinesAround rows cols b r' c' : Int)) :
    ∀ r' c' cell', getCell (setCell b r c fun cl => { cl with isRevealed := true }) r' c'
        = some cell' → cell'.isMine = false →
      cell'.neighborMines = (countMinesAround rows cols
        (setCell b r c fun cl => { cl with isRevealed := true }) r' c' : Int) := by
  intro r' c' cell' hget' hmine'
  rw [countMinesAround_setReveal]
  by_cases heq : r = r' ∧ c = c'
  · obtain ⟨h1, h2⟩ := heq
    subst h1
    subst h2
    cases hget : getCell b r c with
    | none =>
      rw [setCell_of_getCell_none b r c _ hget, hget] at hget'
      cases hget'
    | some cell =>
      rw [getCell_setCell_self b r c _ cell hget] at hget'
      cases hget'
      exact hcons r c cell hget hmine'
  · rw [getCell_setCell_ne b r c _ r' c' heq] at hget'
    exact hcons r' c' cell' hget' hmine'

theorem cons_floodAux (rows cols : Int) (b : MsBoard) (stack : List (Int × Int))
    (hcons : ∀ r' c' cell, getCell b r' c' = some cell → cell.isMine = false →
      cell.neighborMines = (countMinesAround rows cols b r' c' : Int)) :
    ∀ r' c' cell', getCell (floodAux rows cols b stack) r' c' = some cell' →
      cell'.isMine = false →
      cell'.neighborMines
        = (countMinesAround rows cols (floodAux rows cols b stack) r' c' : Int) := by
  intro r' c' cell' hget' hmine'
  have hcnt : countMinesAround rows cols (floodAux rows cols b stack) r' c'
      = countMinesAround rows cols b r' c' :=
    countMinesAround_eq_of_isMineAt rows cols _ b r' c'
      fun rr cc => isMineAt_floodAux rows cols b stack rr cc
  rw [hcnt]
  rcases floodAux_pointwise rows cols b stack r' c' with hsame | ⟨cell, hget, hres⟩
  · rw [hsame] at hget'
    exact hcons r' c' cell' hget' hmine'
  · rw [hres] at hget'
    cases hget'
    exact hcons r' c' cell hget hmine'

theorem checkWin_board_cases (s : GameState) (b : MsBoard) :
    (checkWin s b).board = s.board ∨ (checkWin s b).board = flagAllMines b := by
  unfold checkWin
  split
  · exact Or.inr rfl
  · exact Or.inl rfl

theorem isRevealed_flagAllMines (b : MsBoard) (r c : Int) (cell : Cell)
    (h : getCell b r c = some cell) :
    ∃ cell', getCell (flagAllMines b) r c = some cell' ∧
      cell'.isRevealed = cell.isRevealed ∧ cell'.isMine = cell.isMine := by
  unfold flagAllMines
  rw [getCell_map_map, h, Option.map_some']
  by_cases hm : cell.isMine = true
  · rw [if_pos hm]
    exact ⟨_, rfl, rfl, rfl⟩
  · rw [if_neg hm]
    exact ⟨_, rfl, rfl, rfl⟩

theorem minesRevealed_revealAllMines (b : MsBoard) :
    ∀ r c cell, getCell (revealAllMines b) r c = some cell → cell.isMine = true →
      cell.isRevealed = true := by
  intro r c cell hget hmine
  unfold revealAllMines at hget
  rw [getCell_map_map] at hget
  cases hb : getCell b r c with
  | none =>
    rw [hb] at hget
    cases hget
  | some cell0 =>
    rw [hb, Option.map_some'] at hget
    cases hget
    by_cases hm : cell0.isMine = true
    · rw [if_pos hm]
    · rw [if_neg hm] at hmine ⊢
      exact absurd hmine hm

theorem chordStep_none (acc : MsBoard × Bool) (p : Int × Int)
    (h : getCell acc.1 p.1 p.2 = none) : chordStep acc p = acc := by
  unfold chordStep
  simp only [h]

theorem chordStep_skip (acc : MsBoard × Bool) (p : Int × Int) (ncell : Cell)
    (h : getCell acc.1 p.1 p.2 = some ncell)
    (hs : ¬(!ncell.isRevealed && !ncell.isFlagged) = true) : chordStep acc p = acc := by
  unfold chordStep
  simp only [h, if_neg hs]

theorem chordStep_mine (acc : MsBoard × Bool) (p : Int × Int) (ncell : Cell)
    (h : getCell acc.1 p.1 p.2 = some ncell)
    (hs : (!ncell.isRevealed && !ncell.isFlagged) = true) (hm : ncell.isMine = true) :
    chordStep acc p
      = (setCell acc.1 p.1 p.2 fun cl => { cl with isRevealed := true }, true) := by
  unfold chordStep
  simp only [h, if_pos hs, if_pos hm]

theorem chordStep_zero (acc : MsBoard × Bool) (p : Int × Int) (ncell : Cell)
    (h : getCell acc.1 p.1 p.2 = some ncell)
    (hs : (!ncell.isRevealed && !ncell.isFlagged) = true) (hm : ¬ncell.isMine = true)
    (hz : (ncell.neighborMines == 0) = true) :
    chordStep acc p = (revealFlood acc.1 p.1 p.2, acc.2) := by
  unfold chordStep
  simp only [h, if_pos hs, if_neg hm, if_pos hz]

theorem chordStep_single (acc : MsBoard × Bool) (p : Int × Int) (ncell : Cell)
    (h : getCell acc.1 p.1 p.2 = some ncell)
    (hs : (!ncell.isRevealed && !ncell.isFlagged) = true) (hm : ¬ncell.isMine = true)
    (hz : ¬(ncell.neighborMines == 0) = true) :
    chordStep acc p
      = (setCell acc.1 p.1 p.2 fun cl => { cl with isRevealed := true }, acc.2) := by
  unfold chordStep
  simp only [h, if_pos hs, if_neg hm, if_neg hz]

theorem chordStep_flag_mono (acc : MsBoard × Bool) (p : Int × Int) (h : acc.2 = true) :
    (chordStep acc p).2 = true := by
  cases hget : getCell acc.1 p.1 p.2 with
  | none =>
    rw [chordStep_none acc p hget]
    exact h
  | some ncell =>
    by_cases hs : (!ncell.isRevealed && !ncell.isFlagged) = true
    · by_cases hm : ncell.isMine = true
      · rw [chordStep_mine acc p ncell hget hs hm]
      · by_cases hz : (ncell.neighborMines == 0) = true
        · rw [chordStep_zero acc p ncell hget hs hm hz]
          exact h
        · rw [chordStep_single acc p ncell hget hs hm hz]
          exact h
    · rw [chordStep_skip acc p ncell hget hs]
      exact h

theorem chordFold_flag_true (ps : List (Int × Int)) :
    ∀ acc : MsBoard × Bool, acc.2 = true → (ps.foldl chordStep acc).2 = true := by
  induction ps with
  | nil => exact fun acc h => h
  | cons q rest ih =>
    intro acc h
    rw [List.foldl_cons]
    exact ih _ (chordStep_flag_mono acc q h)

theorem chordStep_grows (acc : MsBoard × Bool) (p : Int × Int) :
    boardGrows acc.1 (chordStep acc p).1 := by
  cases hget : getCell acc.1 p.1 p.2 with
  | none =>
    rw [chordStep_none acc p hget]
    exact boardGrows_refl _
  | some ncell =>
    by_cases hs : (!ncell.isRevealed && !ncell.isFlagged) = true
    · by_cases hm : ncell.isMine = true
      · rw [chordStep_mine acc p ncell hget hs hm]
        exact boardGrows_setReveal _ _ _ ncell hget
      · by_cases hz : (ncell.neighborMines == 0) = true
        · rw [chordStep_zero acc p ncell hget hs hm hz]
          exact floodAux_grows _ _ _ _
        · rw [chordStep_single acc p ncell hget hs hm hz]
          exact boardGrows_setReveal _ _ _ ncell hget
    · rw [chordStep_skip acc p ncell hget hs]
      exact boardGrows_refl _

theorem chordFold_grows (ps : List (Int × Int)) :
    ∀ acc : MsBoard × Bool, boardGrows acc.1 (ps.foldl chordStep acc).1 := by
  induction ps with
  | nil => exact fun acc => boardGrows_refl _
  | cons q rest ih =>
    intro acc
    rw [List.foldl_cons]
    exact boardGrows_trans (chordStep_grows acc q) (ih _)

theorem chordFold_inv (rows cols : Int) (ps : List (Int × Int)) :
    ∀ (b : MsBoard) (flag : Bool),
      rowsOf b = rows → colsOf b = cols →
      (∀ r c cell, getCell b r c = some cell → cell.isMine = false →
        cell.neighborMines = (countMinesAround rows cols b r c : Int)) →
      (rowsOf (ps.foldl chordStep (b, flag)).1 = rows ∧
        colsOf (ps.foldl chordStep (b, flag)).1 = cols) ∧
      (∀ r c cell, getCell (ps.foldl chordStep (b, flag)).1 r c = some cell →
        cell.isMine = false →
        cell.neighborMines
          = (countMinesAround rows cols (ps.foldl chordStep (b, flag)).1 r c : Int)) ∧
      ((ps.foldl chordStep (b, flag)).2 = false →
        ∀ r c cell, getCell b r c = some cell → cell.isMine = true →
          getCell (ps.foldl chordStep (b, flag)).1 r c = some cell) := by
  induction ps with
  | nil =>
    intro b flag hrows hcols hcons
    exact ⟨⟨hrows, hcols⟩, hcons, fun _ r c cell hget _ => hget⟩
  | cons q rest ih =>
    intro b flag hrows hcols hcons
    rw [List.foldl_cons]
    cases hget : getCell b q.1 q.2 with
    | none =>
      rw [chordStep_none (b, flag) q hget]
      exact ih b flag hrows hcols hcons
    | some ncell =>
      by_cases hs : (!ncell.isRevealed && !ncell.isFlagged) = true
      · by_cases hm : ncell.isMine = true
        · rw [chordStep_mine (b, flag) q ncell hget hs hm]
          have hrows' : rowsOf (setCell b q.1 q.2 fun cl => { cl with isRevealed := true })
              = rows := by rw [rowsOf_setCell, hrows]
          have hcols' : colsOf (setCell b q.1 q.2 fun cl => { cl with isRevealed := true })
              = cols := by rw [colsOf_setCell, hcols]
          have hcons' := cons_setReveal rows cols b q.1 q.2 hcons
          obtain ⟨hd, hc, _⟩ := ih _ true hrows' hcols' hcons'
          refine ⟨hd, hc, fun hfalse => ?_⟩
          have := chordFold_flag_true rest
            (setCell b q.1 q.2 fun cl => { cl with isRevealed := true }, true) rfl
          rw [hfalse] at this
          cases this
        · by_cases hz : (ncell.neighborMines == 0) = true
          · rw [chordStep_zero (b, flag) q ncell hget hs hm hz]
            have hfl : revealFlood b q.1 q.2 = floodAux rows cols b [(q.1, q.2)] := by
              unfold revealFlood
              rw [hrows, hcols]
            have hrows' : rowsOf (revealFlood b q.1 q.2) = rows := by
              rw [hfl, (dims_floodAux rows cols b [(q.1, q.2)]).1, hrows]
            have hcols' : colsOf (revealFlood b q.1 q.2) = cols := by
              rw [hfl, (dims_floodAux rows cols b [(q.1, q.2)]).2, hcols]
            have hcons' : ∀ r c cell, getCell (revealFlood b q.1 q.2) r c = some cell →
                cell.isMine = false →
                cell.neighborMines
                  = (countMinesAround rows cols (revealFlood b q.1 q.2) r c : Int) := by
              rw [hfl]
              exact cons_floodAux rows cols b [(q.1, q.2)] hcons
            obtain ⟨hd, hc, hmines⟩ := ih _ flag hrows' hcols' hcons'
            refine ⟨hd, hc, fun hfalse r c cell hgetb hmineb => ?_⟩
            have hb1 : getCell (revealFlood b q.1 q.2) r c = some cell := by
              rw [hfl]
              apply floodAux_preserves_mines rows cols b [(q.1, q.2)] hcons ?_ r c cell
                hgetb hmineb
              intro p hp
              rw [List.mem_singleton] at hp
              subst hp
              unfold isMineAt
              rw [hget]
              simp only [Bool.not_eq_true] at hm
              exact hm
            exact hmines hfalse r c cell hb1 hmineb
          · rw [chordStep_single (b, flag) q ncell hget hs hm hz]
            have hrows' : rowsOf (setCell b q.1 q.2 fun cl => { cl with isRevealed := true })
                = rows := by rw [rowsOf_setCell, hrows]
            have hcols' : colsOf (setCell b q.1 q.2 fun cl => { cl with isRevealed := true })
                = cols := by rw [colsOf_setCell, hcols]
            have hcons' := cons_setReveal rows cols b q.1 q.2 hcons
            obtain ⟨hd, hc, hmines⟩ := ih _ flag hrows' hcols' hcons'
            refine ⟨hd, hc, fun hfalse r c cell hgetb hmineb => ?_⟩
            have hne : ¬(q.1 = r ∧ q.2 = c) := by
              rintro ⟨h1, h2⟩
              subst h1
              subst h2
              rw [hget] at hgetb
              cases hgetb
              rw [hmineb] at hm
              exact hm rfl
            have hb1 : getCell (setCell b q.1 q.2 fun cl => { cl with isRevealed := true })
                r c = some cell := by
              rw [getCell_setCell_ne b q.1 q.2 _ r c hne]
              exact hgetb
            exact hmines hfalse r c cell hb1 hmineb
      · rw [chordStep_skip (b, flag) q ncell hget hs]
        exact ih b flag hrows hcols hcons

theorem no_new_reveal_checkWin (X : GameState) (b : MsBoard) (r c : Int)
    (cell cell' : Cell) (hb : X.board = b)
    (h : getCell b r c = some cell) (hrev : cell.isRevealed = false)
    (h4 : getCell (checkWin X b).board r c = some cell')
    (h5 : cell'.isRevealed = true) : False := by
  unfold checkWin at h4
  split at h4
  · obtain ⟨cell2, hc2, hrev2, _⟩ := isRevealed_flagAllMines b r c cell h
    rw [show (flagAllMines (cloneBoard b)) = flagAllMines b from rfl] at h4
    rw [hc2] at h4
    cases h4
    rw [hrev2, hrev] at h5
    cases h5
  · rw [hb, h] at h4
    cases h4
    rw [hrev] at h5
    cases h5

/-- Claim C4: in a running session past the first click whose board
satisfies the neighbor-count invariant, whenever a reveal intent or a
chord reveal actually reveals some mine cell, the resulting state has
every mine revealed, `gameOver = true` and `isWin = false`.  (Under the
count invariant the floods triggered by a reveal or chord never touch a
mine, so the only way a mine becomes revealed is the direct mine branch,
which ends the game as a loss.) -/
theorem claim_c4_mine_reveal_loses (s : GameState) (r c : Int)
    (shuffle : List Int → List Int)
    (hgo : s.gameOver = false) (hfc : s.isFirstClick = false)
    (hcons : boardConsistentB s.board = true) :
    (∀ s', revealCell s r c shuffle = .ok s' →
      (∃ mr mc mcell mcell', getCell s.board mr mc = some mcell ∧ mcell.isMine = true ∧
        mcell.isRevealed = false ∧ getCell s'.board mr mc = some mcell' ∧
        mcell'.isRevealed = true) →
      s'.gameOver = true ∧ s'.isWin = false ∧
        (∀ mr mc mcell, getCell s'.board mr mc = some mcell → mcell.isMine = true →
          mcell.isRevealed = true)) ∧
    (∀ s', chordReveal s r c = .ok s' →
      (∃ mr mc mcell mcell', getCell s.board mr mc = some mcell ∧ mcell.isMine = true ∧
        mcell.isRevealed = false ∧ getCell s'.board mr mc = some mcell' ∧
        mcell'.isRevealed = true) →
      s'.gameOver = true ∧ s'.isWin = false ∧
        (∀ mr mc mcell, getCell s'.board mr mc = some mcell → mcell.isMine = true →
          mcell.isRevealed = true)) := by
  have hconsS := boardConsistent_spec s.board hcons
  constructor
  · intro s' hok hrev
    unfold revealCell at hok
    simp only [hgo, hfc, Bool.false_eq_true, if_false, cloneBoard] at hok
    cases hbase : getCell s.board r c with
    | none =>
      simp only [hbase] at hok
      cases hok
    | some cell =>
      simp only [hbase] at hok
      by_cases hrf : (cell.isRevealed || cell.isFlagged) = true
      · rw [if_pos hrf] at hok
        injection hok with hok'
        subst hok'
        obtain ⟨mr, mc, mcell, mcell', h1, h2, h3, h4, h5⟩ := hrev
        rw [h1] at h4
        cases h4
        rw [h3] at h5
        cases h5
      · rw [if_neg hrf] at hok
        by_cases hm : cell.isMine = true
        · rw [if_pos hm] at hok
          injection hok with hok'
          subst hok'
          exact ⟨rfl, rfl, minesRevealed_revealAllMines s.board⟩
        · rw [if_neg hm] at hok
          injection hok with hok'
          subst hok'
          exfalso
          obtain ⟨mr, mc, mcell, mcell', h1, h2, h3, h4, h5⟩ := hrev
          have hnb : getCell (if (cell.neighborMines == 0) = true
              then revealFlood s.board r c
              else setCell s.board r c fun cl => { cl with isRevealed := true }) mr mc
              = some mcell := by
            by_cases hz : (cell.neighborMines == 0) = true
            · rw [if_pos hz]
              unfold revealFlood
              apply floodAux_preserves_mines _ _ _ _ hconsS ?_ mr mc mcell h1 h2
              intro p hp
              rw [List.mem_singleton] at hp
              subst hp
              unfold isMineAt
              rw [hbase]
              simpa using hm
            · rw [if_neg hz]
              have hne : ¬(r = mr ∧ c = mc) := by
                rintro ⟨hh1, hh2⟩
                subst hh1
                subst hh2
                rw [hbase] at h1
                cases h1
                exact hm h2
              rw [getCell_setCell_ne _ _ _ _ _ _ hne]
              exact h1
          exact no_new_reveal_checkWin _ _ mr mc mcell mcell' rfl hnb h3 h4 h5
  · intro s' hok hrev
    unfold chordReveal at hok
    simp only [hgo, Bool.false_eq_true, if_false, cloneBoard] at hok
    cases hbase : getCell s.board r c with
    | none =>
      simp only [hbase] at hok
      cases hok
    | some base =>
      simp only [hbase] at hok
      by_cases hg1 : (!base.isRevealed || decide (base.neighborMines ≤ 0)) = true
      · rw [if_pos hg1] at hok
        injection hok with hok'
        subst hok'
        obtain ⟨mr, mc, mcell, mcell', h1, h2, h3, h4, h5⟩ := hrev
        rw [h1] at h4
        cases h4
        rw [h3] at h5
        cases h5
      · rw [if_neg hg1] at hok
        by_cases hg2 : (countFlagsAround s.board r c : Int) ≠ base.neighborMines
        · rw [if_pos hg2] at hok
          injection hok with hok'
          subst hok'
          obtain ⟨mr, mc, mcell, mcell', h1, h2, h3, h4, h5⟩ := hrev
          rw [h1] at h4
          cases h4
          rw [h3] at h5
          cases h5
        · rw [if_neg hg2] at hok
          by_cases hhit : ((getNeighbors (rowsOf s.board) (colsOf s.board) r c).foldl
              chordStep (s.board, false)).2 = true
          · rw [if_pos hhit] at hok
            injection hok with hok'
            subst hok'
            exact ⟨rfl, rfl, minesRevealed_revealAllMines _⟩
          · rw [if_neg hhit] at hok
            injection hok with hok'
            subst hok'
            exfalso
            obtain ⟨mr, mc, mcell, mcell', h1, h2, h3, h4, h5⟩ := hrev
            obtain ⟨_, _, hmines⟩ := chordFold_inv (rowsOf s.board) (colsOf s.board)
              (getNeighbors (rowsOf s.board) (colsOf s.board) r c) s.board false
              rfl rfl hconsS
            have hres : ((getNeighbors (rowsOf s.board) (colsOf s.board) r c).foldl
                chordStep (s.board, false)).2 = false := by
              cases hx : ((getNeighbors (rowsOf s.board) (colsOf s.board) r c).foldl
                  chordStep (s.board, false)).2
              · rfl
              · exact absurd hx hhit
            have hnb := hmines hres mr mc mcell h1 h2
            exact no_new_reveal_checkWin _ _ mr mc mcell mcell' rfl hnb h3 h4 h5

/-- Witness for C4 on a concrete consistent 1×2 running session. -/
theorem claim_c4_witness :
    (⟨⟨1, 2, 1⟩, [[⟨false, false, false, 1⟩, ⟨true, false, false, -1⟩]],
        false, false, false, 0, 0, true⟩ : GameState).gameOver = false ∧
    (⟨⟨1, 2, 1⟩, [[⟨false, false, false, 1⟩, ⟨true, false, false, -1⟩]],
        false, false, false, 0, 0, true⟩ : GameState).isFirstClick = false ∧
    boardConsistentB [[⟨false, false, false, 1⟩, ⟨true, false, false, -1⟩]] = true ∧
    ((∀ s', revealCell ⟨⟨1, 2, 1⟩, [[⟨false, false, false, 1⟩, ⟨true, false, false, -1⟩]],
          false, false, false, 0, 0, true⟩ 0 0 id = .ok s' →
      (∃ mr mc mcell mcell',
        getCell [[⟨false, false, false, 1⟩, ⟨true, false, false, -1⟩]] mr mc = some mcell ∧
        mcell.isMine = true ∧ mcell.isRevealed = false ∧
        getCell s'.board mr mc = some mcell' ∧ mcell'.isRevealed = true) →
      s'.gameOver = true ∧ s'.isWin = false ∧
        (∀ mr mc mcell, getCell s'.board mr mc = some mcell → mcell.isMine = true →
          mcell.isRevealed = true)) ∧
    (∀ s', chordReveal ⟨⟨1, 2, 1⟩, [[⟨false, false, false, 1⟩, ⟨true, false, false, -1⟩]],
          false, false, false, 0, 0, true⟩ 0 0 = .ok s' →
      (∃ mr mc mcell mcell',
        getCell [[⟨false, false, false, 1⟩, ⟨true, false, false, -1⟩]] mr mc = some mcell ∧
        mcell.isMine = true ∧ mcell.isRevealed = false ∧
        getCell s'.board mr mc = some mcell' ∧ mcell'.isRevealed = true) →
      s'.gameOver = true ∧ s'.isWin = false ∧
        (∀ mr mc mcell, getCell s'.board mr mc = some mcell → mcell.isMine = true →
          mcell.isRevealed = true))) :=
  ⟨rfl, rfl, by decide,
    claim_c4_mine_reveal_loses
      ⟨⟨1, 2, 1⟩, [[⟨false, false, false, 1⟩, ⟨true, false, false, -1⟩]],
        false, false, false, 0, 0, true⟩ 0 0 id rfl rfl (by decide)⟩

theorem isRevealed_revealAllMines (b : MsBoard) (r c : Int) (cell : Cell)
    (h : getCell b r c = some cell) :
    ∃ cell', getCell (revealAllMines b) r c = some cell' ∧
      (cell.isRevealed = true → cell'.isRevealed = true) := by
  unfold revealAllMines
  rw [getCell_map_map, h, Option.map_some']
  by_cases hm : cell.isMine = true
  · rw [if_pos hm]
    exact ⟨_, rfl, fun _ => rfl⟩
  · rw [if_neg hm]
    exact ⟨_, rfl, fun hh => hh⟩

theorem checkWin_keeps_reveal (X : GameState) (b : MsBoard) (r c : Int) (cell : Cell)
    (hb : X.board = b) (h : getCell b r c = some cell) (hrev : cell.isRevealed = true) :
    ∃ cell', getCell (checkWin X b).board r c = some cell' ∧ cell'.isRevealed = true := by
  unfold checkWin
  split
  · obtain ⟨cell2, hc2, hrev2, _⟩ := isRevealed_flagAllMines b r c cell h
    exact ⟨cell2, hc2, by rw [hrev2, hrev]⟩
  · exact ⟨cell, by rw [hb]; exact h, hrev⟩

theorem chordFold_reveals (ps : List (Int × Int)) :
    ∀ (acc : MsBoard × Bool) (p : Int × Int), p ∈ ps →
      ∀ cell, getCell acc.1 p.1 p.2 = some cell → cell.isRevealed = false →
        cell.isFlagged = false →
        ∃ cell', getCell (ps.foldl chordStep acc).1 p.1 p.2 = some cell' ∧
          cell'.isRevealed = true := by
  induction ps with
  | nil =>
    intro acc p hp
    cases hp
  | cons q rest ih =>
    intro acc p hp cell hget hrev hflag
    rw [List.foldl_cons]
    rcases List.mem_cons.mp hp with hpq | hp'
    · subst hpq
      have hs : (!cell.isRevealed && !cell.isFlagged) = true := by
        rw [hrev, hflag]
        rfl
      by_cases hm : cell.isMine = true
      · rw [chordStep_mine acc p cell hget hs hm]
        have hset := getCell_setCell_self acc.1 p.1 p.2
          (fun cl => { cl with isRevealed := true }) cell hget
        obtain ⟨cell2, hget2, hgrow⟩ := chordFold_grows rest
          (setCell acc.1 p.1 p.2 fun cl => { cl with isRevealed := true }, true)
          p.1 p.2 _ hset
        exact ⟨cell2, hget2, hgrow.2.2.2 rfl⟩
      · by_cases hz : (cell.neighborMines == 0) = true
        · rw [chordStep_zero acc p cell hget hs hm hz]
          have hres : getCell (revealFlood acc.1 p.1 p.2) p.1 p.2
              = some { cell with isRevealed := true } := by
            rcases floodAux_pointwise (rowsOf acc.1) (colsOf acc.1) acc.1
                [(p.1, p.2)] p.1 p.2 with hsame | ⟨cell0, hget0, hres0⟩
            · obtain ⟨cellf, hgetf, hsf⟩ := revealFlood_start acc.1 p.1 p.2 cell hget
              unfold revealFlood at hgetf
              rw [hsame, hget] at hgetf
              cases hgetf
              rw [hrev, hflag] at hsf
              cases hsf
            · rw [hget0] at hget
              cases hget
              unfold revealFlood
              exact hres0
          obtain ⟨cell2, hget2, hgrow⟩ := chordFold_grows rest
            (revealFlood acc.1 p.1 p.2, acc.2) p.1 p.2 _ hres
          exact ⟨cell2, hget2, hgrow.2.2.2 rfl⟩
        · rw [chordStep_single acc p cell hget hs hm hz]
          have hset := getCell_setCell_self acc.1 p.1 p.2
            (fun cl => { cl with isRevealed := true }) cell hget
          obtain ⟨cell2, hget2, hgrow⟩ := chordFold_grows rest
            (setCell acc.1 p.1 p.2 fun cl => { cl with isRevealed := true }, acc.2)
            p.1 p.2 _ hset
          exact ⟨cell2, hget2, hgrow.2.2.2 rfl⟩
    · obtain ⟨cell1, hget1, hgrow1⟩ := chordStep_grows acc q p.1 p.2 cell hget
      by_cases hrev1 : cell1.isRevealed = true
      · obtain ⟨cell2, hget2, hgrow2⟩ := chordFold_grows rest (chordStep acc q)
          p.1 p.2 cell1 hget1
        exact ⟨cell2, hget2, hgrow2.2.2.2 hrev1⟩
      · have hrev1' : cell1.isRevealed = false := by
          cases hx : cell1.isRevealed
          · rfl
          · exact absurd hx hrev1
        have hflag1 : cell1.isFlagged = false := by
          rw [hgrow1.2.1, hflag]
        exact ih (chordStep acc q) p hp' cell1 hget1 hrev1' hflag1

/-- Claim C7: in a running session, chord reveal leaves the state
unchanged unless the target cell is already revealed, shows a positive
number, and has exactly that many flagged neighbors; when all three
hold, every previously unrevealed unflagged neighbor ends up revealed
(mines among them directly, zero-count neighbors via flood, numbered
neighbors singly). -/
theorem claim_c7_chord_gating (s : GameState) (r c : Int) (base : Cell)
    (hgo : s.gameOver = false) (hbase : getCell s.board r c = some base) :
    (¬(base.isRevealed = true ∧ 0 < base.neighborMines ∧
        (countFlagsAround s.board r c : Int) = base.neighborMines) →
      chordReveal s r c = .ok s) ∧
    ((base.isRevealed = true ∧ 0 < base.neighborMines ∧
        (countFlagsAround s.board r c : Int) = base.neighborMines) →
      ∃ s', chordReveal s r c = .ok s' ∧
        ∀ p ∈ getNeighbors (rowsOf s.board) (colsOf s.board) r c,
          ∀ ncell, getCell s.board p.1 p.2 = some ncell →
            ncell.isRevealed = false → ncell.isFlagged = false →
            ∃ ncell', getCell s'.board p.1 p.2 = some ncell' ∧
              ncell'.isRevealed = true) := by
  constructor
  · intro hncond
    unfold chordReveal
    simp only [hgo, Bool.false_eq_true, if_false, cloneBoard, hbase]
    by_cases hrev : base.isRevealed = true
    · by_cases hnm : 0 < base.neighborMines
      · have hne : (countFlagsAround s.board r c : Int) ≠ base.neighborMines := by
          intro heq
          exact hncond ⟨hrev, hnm, heq⟩
        have hg1 : (!base.isRevealed || decide (base.neighborMines ≤ 0)) = false := by
          rw [hrev]
          simp only [Bool.not_true, Bool.false_or, decide_eq_false_iff_not, not_le]
          exact hnm
        rw [if_neg (by rw [hg1]; exact Bool.false_ne_true), if_pos hne]
      · have hg1 : (!base.isRevealed || decide (base.neighborMines ≤ 0)) = true := by
        -- the guard is satisfied because the count is non-positive
          simp only [Bool.or_eq_true, decide_eq_true_eq]
          right
          omega
        rw [if_pos hg1]
    · have hrev' : base.isRevealed = false := by
        cases hx : base.isRevealed
        · rfl
        · exact absurd hx hrev
      have hg1 : (!base.isRevealed || decide (base.neighborMines ≤ 0)) = true := by
        rw [hrev']
        simp
      rw [if_pos hg1]
  · rintro ⟨hrev, hnm, hflags⟩
    unfold chordReveal
    simp only [hgo, Bool.false_eq_true, if_false, cloneBoard, hbase]
    have hg1 : (!base.isRevealed || decide (base.neighborMines ≤ 0)) = false := by
      rw [hrev]
      simp only [Bool.not_true, Bool.false_or, decide_eq_false_iff_not, not_le]
      exact hnm
    rw [if_neg (by rw [hg1]; exact Bool.false_ne_true),
      if_neg (show ¬((countFlagsAround s.board r c : Int) ≠ base.neighborMines) from
        fun h => h hflags)]
    by_cases hhit : ((getNeighbors (rowsOf s.board) (colsOf s.board) r c).foldl
        chordStep (s.board, false)).2 = true
    · rw [if_pos hhit]
      refine ⟨_, rfl, ?_⟩
      intro p hp ncell hnc hnr hnf
      obtain ⟨cellR, hcR, hrevR⟩ := chordFold_reveals _ (s.board, false) p hp ncell
        hnc hnr hnf
      obtain ⟨cell', hc', himp⟩ := isRevealed_revealAllMines _ p.1 p.2 cellR hcR
      exact ⟨cell', hc', himp hrevR⟩
    · rw [if_neg hhit]
      refine ⟨_, rfl, ?_⟩
      intro p hp ncell hnc hnr hnf
      obtain ⟨cellR, hcR, hrevR⟩ := chordFold_reveals _ (s.board, false) p hp ncell
        hnc hnr hnf
      exact checkWin_keeps_reveal _ _ p.1 p.2 cellR rfl hcR hrevR

/-- Witness for C7 on a concrete 2×2 session: base (0,0) shows "1" with
exactly one flagged neighbor, so the chord fires. -/
theorem claim_c7_witness :
    (⟨⟨2, 2, 1⟩, [[⟨false, true, false, 1⟩, ⟨true, false, true, -1⟩],
        [⟨false, false, false, 1⟩, ⟨false, false, false, 1⟩]],
        false, false, false, 1, 3, true⟩ : GameState).gameOver = false ∧
    getCell [[⟨false, true, false, 1⟩, ⟨true, false, true, -1⟩],
        [⟨false, false, false, 1⟩, ⟨false, false, false, 1⟩]] 0 0
      = some ⟨false, true, false, 1⟩ ∧
    ((¬((⟨false, true, false, 1⟩ : Cell).isRevealed = true ∧
        0 < (⟨false, true, false, 1⟩ : Cell).neighborMines ∧
        (countFlagsAround [[⟨false, true, false, 1⟩, ⟨true, false, true, -1⟩],
            [⟨false, false, false, 1⟩, ⟨false, false, false, 1⟩]] 0 0 : Int)
          = (⟨false, true, false, 1⟩ : Cell).neighborMines) →
      chordReveal ⟨⟨2, 2, 1⟩, [[⟨false, true, false, 1⟩, ⟨true, false, true, -1⟩],
          [⟨false, false, false, 1⟩, ⟨false, false, false, 1⟩]],
          false, false, false, 1, 3, true⟩ 0 0
        = .ok ⟨⟨2, 2, 1⟩, [[⟨false, true, false, 1⟩, ⟨true, false, true, -1⟩],
          [⟨false, false, false, 1⟩, ⟨false, false, false, 1⟩]],
          false, false, false, 1, 3, true⟩) ∧
    (((⟨false, true, false, 1⟩ : Cell).isRevealed = true ∧
        0 < (⟨false, true, false, 1⟩ : Cell).neighborMines ∧
        (countFlagsAround [[⟨false, true, false, 1⟩, ⟨true, false, true, -1⟩],
            [⟨false, false, false, 1⟩, ⟨false, false, false, 1⟩]] 0 0 : Int)
          = (⟨false, true, false, 1⟩ : Cell).neighborMines) →
      ∃ s', chordReveal ⟨⟨2, 2, 1⟩, [[⟨false, true, false, 1⟩, ⟨true, false, true, -1⟩],
          [⟨false, false, false, 1⟩, ⟨false, false, false, 1⟩]],
          false, false, false, 1, 3, true⟩ 0 0 = .ok s' ∧
        ∀ p ∈ getNeighbors
            (rowsOf [[⟨false, true, false, 1⟩, ⟨true, false, true, -1⟩],
              [⟨false, false, false, 1⟩, ⟨false, false, false, 1⟩]])
            (colsOf [[⟨false, true, false, 1⟩, ⟨true, false, true, -1⟩],
              [⟨false, false, false, 1⟩, ⟨false, false, false, 1⟩]]) 0 0,
          ∀ ncell, getCell [[⟨false, true, false, 1⟩, ⟨true, false, true, -1⟩],
              [⟨false, false, false, 1⟩, ⟨false, false, false, 1⟩]] p.1 p.2 = some ncell →
            ncell.isRevealed = false → ncell.isFlagged = false →
            ∃ ncell', getCell s'.board p.1 p.2 = some ncell' ∧
              ncell'.isRevealed = true)) :=
  ⟨rfl, by decide,
    claim_c7_chord_gating
      ⟨⟨2, 2, 1⟩, [[⟨false, true, false, 1⟩, ⟨true, false, true, -1⟩],
        [⟨false, false, false, 1⟩, ⟨false, false, false, 1⟩]],
        false, false, false, 1, 3, true⟩ 0 0 ⟨false, true, false, 1⟩ rfl (by decide)⟩
